import Mathlib

/-! Stratum mining client: header codec and RPC bookkeeping.

A shallow embedding of `pkg/stratum/utils.go`, `pkg/stratum/client.go`,
`CheckDifficulty` of `pkg/solver/solver.go` and the nonce partitioning of
`cmd/miner/main.go`, followed by theorems about them.

Conventions of the embedding:
* a Go `[]byte` is a `List Byte`, a byte being a `Fin 256`;
* a Go `string` is a Lean `String` (all strings produced or accepted by the
  modelled code are ASCII, so characters and bytes coincide);
* a run-time panic (index out of range, negative `make` length, NaN handed to
  `big.Float`) is the result `none`;
* `uint32` and `uint64` values are natural numbers, reduced `% 2^32` where the
  Go arithmetic wraps.
-/

namespace Stratum

/-! ## Bytes and slices -/

/-- A Go `byte`. -/
abbrev Byte := Fin 256

/-- Value of a byte slice read as a big-endian unsigned integer. -/
def beValue (bs : List Byte) : Nat :=
  bs.foldl (fun acc b => acc * 256 + b.val) 0

/-- Go `make([]byte, n)`: `n` zero bytes. -/
def makeBytes (n : Nat) : List Byte :=
  List.replicate n 0

/-- Go `copy(dst[lo:hi], src)`: overwrite `min (hi - lo) (len src)` bytes of `dst`
starting at offset `lo`.  The slice expression requires `lo ≤ hi ≤ len dst`. -/
def copyAt (dst : List Byte) (lo hi : Nat) (src : List Byte) : List Byte :=
  let n := min (hi - lo) src.length
  dst.take lo ++ src.take n ++ dst.drop (lo + n)

/-! ## `CheckTarget` (utils.go) -/

/-- The loop of `CheckTarget`: `n` iterations remain and the index is `i`.
Indexing past the end of either slice panics. -/
def CheckTarget.loop (hash target : List Byte) : Nat → Nat → Option Bool
  | 0, _ => some true
  | n + 1, i =>
    match hash[i]?, target[i]? with
    | some h, some t =>
      if h < t then some true
      else if h > t then some false
      else CheckTarget.loop hash target n (i + 1)
    | _, _ => none

/-- The function `CheckTarget(hash, target)`: scan 32 bytes from the most significant. -/
def CheckTarget (hash target : List Byte) : Option Bool :=
  CheckTarget.loop hash target 32 0

/-! ## Hexadecimal strings (Go `encoding/hex`) -/

/-- Go `hextable`, the lowercase digits used by `hex.EncodeToString` and by the
`%x` verb. -/
def hextable : List Char :=
  ['0', '1', '2', '3', '4', '5', '6', '7', '8', '9', 'a', 'b', 'c', 'd', 'e', 'f']

/-- The lowercase hexadecimal digit of a nibble. -/
def hexDigit (n : Nat) : Char :=
  hextable.getD n '0'

/-- The two characters `hex.Encode` writes for one byte: `hextable[v>>4]`,
`hextable[v&0x0f]`. -/
def encodeByte (v : Byte) : List Char :=
  [hexDigit (v.val / 16), hexDigit (v.val % 16)]

/-- The characters of `hex.EncodeToString(bs)`. -/
def encodeChars : List Byte → List Char
  | [] => []
  | v :: rest => encodeByte v ++ encodeChars rest

/-- Go `hex.EncodeToString`. -/
def EncodeToString (bs : List Byte) : String :=
  String.mk (encodeChars bs)

/-- Go `reverseHexTable`: the value of a hexadecimal digit of either case, `none`
for every other character. -/
def fromHexChar (c : Char) : Option (Fin 16) :=
  if 48 ≤ c.toNat ∧ c.toNat ≤ 57 then some (Fin.ofNat (c.toNat - 48))
  else if 97 ≤ c.toNat ∧ c.toNat ≤ 102 then some (Fin.ofNat (c.toNat - 97 + 10))
  else if 65 ≤ c.toNat ∧ c.toNat ≤ 70 then some (Fin.ofNat (c.toNat - 65 + 10))
  else none

/-- The byte `(a << 4) | b` of two nibbles. -/
def joinNibbles (a b : Fin 16) : Byte :=
  ⟨a.val * 16 + b.val, by omega⟩

/-- Go `hex.Decode` on the characters of the input: pairs of digits become bytes;
an invalid digit or an odd length is an error (`none`). -/
def decodeChars : List Char → Option (List Byte)
  | [] => some []
  | [_] => none
  | p :: q :: rest =>
    match fromHexChar p, fromHexChar q with
    | some a, some b =>
      match decodeChars rest with
      | some bs => some (joinNibbles a b :: bs)
      | none => none
    | _, _ => none

/-- Go `hex.DecodeString`; `none` stands for a non-nil error. -/
def DecodeString (s : String) : Option (List Byte) :=
  decodeChars s.data

/-! ## `sha256d` and `reverseBytes` (utils.go) -/

/-- The result type of `sha256.Sum256`, a Go `[32]byte`. -/
abbrev Hash32 := { l : List Byte // l.length = 32 }

/-- The function `sha256d(data)`: SHA-256 applied twice.  `Sum256` is the standard library
hash, taken as a parameter. -/
def sha256d (Sum256 : List Byte → Hash32) (data : List Byte) : List Byte :=
  let h1 := Sum256 data
  let h2 := Sum256 h1.val
  h2.val

/-- The function `reverseBytes(data)`: `result[i] = data[len(data)-1-i]`. -/
def reverseBytes (data : List Byte) : List Byte :=
  List.ofFn (fun i : Fin data.length => data.get ⟨data.length - 1 - i.val, by omega⟩)

/-! ## `Work` and `BuildHeader` -/

/-- A Go `float64`: a finite value `(-1)^neg * mant * 2^exp`, an infinity or a NaN. -/
inductive Float64 where
  | finite (neg : Bool) (mant : Nat) (exp : Int)
  | inf (neg : Bool)
  | nan
  deriving DecidableEq, Repr

/-- The struct `Work` of client.go. -/
structure Work where
  JobID : String
  PrevHash : String
  Coinbase1 : String
  Coinbase2 : String
  MerkleBranch : List String
  Version : String
  NBits : String
  NTime : String
  CleanJobs : Bool
  ExtraNonce1 : String
  ExtraNonce2Size : Int
  Target : List Byte
  difficulty : Float64

/-- The wrapped errors `BuildHeader` returns. -/
inductive HeaderError where
  | invalidVersion
  | invalidPrevhash
  | invalidCoinbase
  | invalidMerkleBranch
  | invalidNTime
  | invalidNBits
  deriving DecidableEq, Repr

/-- The merkle loop of `BuildHeader`: for each branch in order, decode it and
replace the root by `sha256d(append(root, branch...))`. -/
def merkleLoop (Sum256 : List Byte → Hash32) :
    List Byte → List String → Except HeaderError (List Byte)
  | merkleRoot, [] => .ok merkleRoot
  | merkleRoot, branch :: rest =>
    match DecodeString branch with
    | none => .error .invalidMerkleBranch
    | some branchBytes => merkleLoop Sum256 (sha256d Sum256 (merkleRoot ++ branchBytes)) rest

/-- The function `BuildHeader(work, extraNonce2)`. -/
def BuildHeader (Sum256 : List Byte → Hash32) (work : Work) (extraNonce2 : String) :
    Except HeaderError (List Byte) :=
  match DecodeString work.Version with
  | none => .error .invalidVersion
  | some version =>
  match DecodeString work.PrevHash with
  | none => .error .invalidPrevhash
  | some prevHash =>
  let coinbase := work.Coinbase1 ++ work.ExtraNonce1 ++ extraNonce2 ++ work.Coinbase2
  match DecodeString coinbase with
  | none => .error .invalidCoinbase
  | some coinbaseBytes =>
  let coinbaseHash := sha256d Sum256 coinbaseBytes
  match merkleLoop Sum256 coinbaseHash work.MerkleBranch with
  | .error e => .error e
  | .ok merkleRoot =>
  match DecodeString work.NTime with
  | none => .error .invalidNTime
  | some ntime =>
  match DecodeString work.NBits with
  | none => .error .invalidNBits
  | some nbits =>
  let header := makeBytes 80
  let header := copyAt header 0 4 (reverseBytes version)
  let header := copyAt header 4 36 (reverseBytes prevHash)
  let header := copyAt header 36 68 merkleRoot
  let header := copyAt header 68 72 (reverseBytes ntime)
  let header := copyAt header 72 76 (reverseBytes nbits)
  .ok header

/-! ## Targets: `DifficultyToTarget` and `CompactToTarget` -/

/-- The digits of `big.Int.Bytes()`, most significant first, accumulated in front
of `acc`; `fuel` bounds the number of digits. -/
def bigBytesAux : Nat → Nat → List Byte → List Byte
  | 0, _, acc => acc
  | fuel + 1, n, acc =>
    if n = 0 then acc else bigBytesAux fuel (n / 256) (Fin.ofNat (n % 256) :: acc)

/-- Go `(*big.Int).Bytes()` of a non-negative integer: its big-endian bytes without
leading zeros (no byte at all for zero). -/
def bigBytes (n : Nat) : List Byte :=
  bigBytesAux n n []

/-- The block "Ensure 32 bytes" shared by both target functions:
`targetBytes := make([]byte, 32); copy(targetBytes[32-len(b):], b)` with
`b = target.Bytes()`.  A value of more than 32 bytes makes the slice bound
negative, which panics. -/
def ensure32 (target : Nat) : Option (List Byte) :=
  let targetBytes := makeBytes 32
  let targetBigBytes := bigBytes target
  if targetBigBytes.length ≤ 32 then
    some (copyAt targetBytes (32 - targetBigBytes.length) 32 targetBigBytes)
  else none

/-- The constant `bdiff1`, the difficulty-1 reference target. -/
def bdiff1 : Nat :=
  0x00000000ffff0000000000000000000000000000000000000000000000000000

/-- The integer `diffInt` after `new(big.Float).SetFloat64(difficulty)` and
`diffBig.Int(diffInt)`: the value truncated towards zero.  `SetFloat64` panics on
a NaN; on an infinity `Int` returns nil and leaves `diffInt` at its initial 0. -/
def floatToInt : Float64 → Option Int
  | .nan => none
  | .inf _ => some 0
  | .finite neg mant exp =>
    let mag : Nat := if 0 ≤ exp then mant * 2 ^ exp.toNat else mant / 2 ^ (-exp).toNat
    some (if neg then -(mag : Int) else (mag : Int))

/-- The function `DifficultyToTarget(difficulty)`. -/
def DifficultyToTarget (difficulty : Float64) : Option (List Byte) :=
  match floatToInt difficulty with
  | none => none
  | some diffInt =>
    let diffInt := if diffInt ≤ 0 then 1 else diffInt
    let target := (bdiff1 : Int) / diffInt
    ensure32 target.toNat

/-- The exact value of a finite `float64`, `(-1)^neg * mant * 2^exp`. -/
def finiteValue (neg : Bool) (mant : Nat) (exp : Int) : ℚ :=
  (if neg then -1 else 1) * (mant : ℚ) * (2 : ℚ) ^ exp

/-- The target the specification words give for a difficulty `d` taken as an exact
number: `floor(R / d)` with `R = bdiff1`, `d` being replaced by 1 when `d ≤ 0`. -/
def specDifficultyTarget (d : ℚ) : Int :=
  ⌊(bdiff1 : ℚ) / (if d ≤ 0 then 1 else d)⌋

/-- The function `CompactToTarget(compact)` for a `uint32` argument.  The shift count
`8*(exponent-3)` is computed in `uint32` arithmetic. -/
def CompactToTarget (compact : Nat) : Option (List Byte) :=
  let mantissa := compact &&& 0x007fffff
  let exponent := compact >>> 24
  let shift := (8 * ((exponent + 2 ^ 32 - 3) % 2 ^ 32)) % 2 ^ 32
  let target := mantissa <<< shift
  ensure32 target

/-! ## `GenerateExtraNonce2` -/

/-- Go `binary.LittleEndian.PutUint64(b, v)`: the eight bytes of `v`, least
significant first, overwrite `b[0..8]`; a shorter `b` panics. -/
def PutUint64 (b : List Byte) (v : Nat) : Option (List Byte) :=
  if 8 ≤ b.length then
    some ((List.range 8).map (fun i => (Fin.ofNat (v >>> (8 * i)) : Byte)) ++ b.drop 8)
  else none

/-- The function `GenerateExtraNonce2(size, counter)`; `make` panics on a negative size. -/
def GenerateExtraNonce2 (size : Int) (counter : Nat) : Option String :=
  if size < 0 then none
  else
    let bytes := makeBytes size.toNat
    if size ≥ 8 then
      match PutUint64 bytes counter with
      | some bytes => some (EncodeToString bytes)
      | none => none
    else
      match PutUint64 (makeBytes 8) counter with
      | some counterBytes =>
        let bytes := copyAt bytes 0 bytes.length (counterBytes.take size.toNat)
        some (EncodeToString bytes)
      | none => none

/-! ## Nonce partitioning (`mineWorker`, main.go) -/

/-- The assignment `baseNonce := uint32(workerID) * (1 << 24)` in `uint32` arithmetic. -/
def baseNonce (workerID : Nat) : Nat :=
  (workerID % 2 ^ 32) * (1 <<< 24) % 2 ^ 32

/-- The assignment `nonceRange := uint32(1 << 16)`. -/
def nonceRange : Nat :=
  1 <<< 16

/-- The nonces worker `workerID` hands to one `Solve` call:
`baseNonce ≤ nonce < baseNonce + nonceRange`. -/
def searches (workerID nonce : Nat) : Prop :=
  baseNonce workerID ≤ nonce ∧ nonce < baseNonce workerID + nonceRange

instance (workerID nonce : Nat) : Decidable (searches workerID nonce) :=
  inferInstanceAs (Decidable (_ ∧ _))

/-! ## The client: requests, pending calls, `SubmitWork` (client.go) -/

/-- The struct `Request`; every parameter list modelled here holds strings. -/
structure Request where
  ID : Int
  Method : String
  Params : List String
  deriving DecidableEq, Repr

/-- The struct `Error` of a JSON-RPC response. -/
structure RPCError where
  Code : Int
  Message : String
  deriving DecidableEq, Repr

/-- The struct `Response`; `Result` is the raw JSON text. -/
structure Response where
  ID : Int
  Result : String
  Error : Option RPCError
  deriving DecidableEq, Repr

/-- The fields of `Client` the modelled methods touch.  `pending` maps a request
identifier to its reply channel, a channel being named by a number; `nextChan` is
the name the next `make(chan *Response, 1)` yields. -/
structure Client where
  username : String
  msgID : Int
  pending : List (Int × Nat)
  nextChan : Nat
  deriving DecidableEq, Repr

/-- Go map lookup `c.pending[id]`. -/
def pendingLookup (pending : List (Int × Nat)) (id : Int) : Option Nat :=
  (pending.find? (fun e => e.1 == id)).map (fun e => e.2)

/-- Go `delete(c.pending, id)`. -/
def pendingDelete (pending : List (Int × Nat)) (id : Int) : List (Int × Nat) :=
  pending.filter (fun e => !(e.1 == id))

/-- Go map store `c.pending[id] = ch`. -/
def pendingStore (pending : List (Int × Nat)) (id : Int) (ch : Nat) : List (Int × Nat) :=
  (id, ch) :: pendingDelete pending id

/-- The method `nextID()`: `c.msgID.Add(1)` on an `atomic.Int64`. -/
def nextID (c : Client) : Int × Client :=
  let v := (c.msgID + 1 + 2 ^ 63) % 2 ^ 64 - 2 ^ 63
  (v, { c with msgID := v })

/-- The method `handleResponse(resp)`: when the identifier is pending, the response is sent on
its channel and the identifier is deleted.  Returns the delivery made, if any. -/
def handleResponse (c : Client) (resp : Response) : Client × Option (Nat × Response) :=
  match pendingLookup c.pending resp.ID with
  | some ch => ({ c with pending := pendingDelete c.pending resp.ID }, some (ch, resp))
  | none => (c, none)

/-- What the environment does during one `call`: marshalling fails, the write or
the flush fails, the read task handles a response carrying this request's
identifier, or 30 seconds pass without one. -/
inductive CallOutcome where
  | marshalFails
  | writeFails
  | flushFails
  | reply (result : String) (err : Option RPCError)
  | timeout
  deriving DecidableEq, Repr

/-- The registration step of `call`: `ch := make(chan *Response, 1)` and
`c.pending[req.ID] = ch`. -/
def call.register (c : Client) (req : Request) : Client :=
  let ch := c.nextChan
  { c with pending := pendingStore c.pending req.ID ch, nextChan := c.nextChan + 1 }

/-- The method `call(req)` under a given outcome: the client afterwards and the returned
`(*Response, error)`, the error being its message. -/
def call (c : Client) (req : Request) (o : CallOutcome) : Client × Except String Response :=
  match o with
  | .marshalFails => (c, .error "json: marshal error")
  | .writeFails => (call.register c req, .error "write error")
  | .flushFails => (call.register c req, .error "flush error")
  | .reply result err =>
    let c := call.register c req
    let resp : Response := { ID := req.ID, Result := result, Error := err }
    let c := (handleResponse c resp).1
    match resp.Error with
    | some e => (c, .error ("RPC error: " ++ e.Message))
    | none => (c, .ok resp)
  | .timeout => (call.register c req, .error "RPC timeout")

/-- Go `bits.ReverseBytes32`: the four bytes of a `uint32` in reverse order. -/
def ReverseBytes32 (x : Nat) : Nat :=
  (x % 256) * 2 ^ 24 + (x / 2 ^ 8 % 256) * 2 ^ 16 + (x / 2 ^ 16 % 256) * 2 ^ 8 + x / 2 ^ 24 % 256

/-- The digit loop of the `%x` verb (`fmtInteger`): while `u >= 16` the digit of
`u & 0xF` is written in front and `u >>= 4`; the last digit is that of `u`.
`fuel` bounds the number of iterations. -/
def hexDigitsAux : Nat → Nat → List Char → List Char
  | 0, u, acc => hexDigit u :: acc
  | fuel + 1, u, acc =>
    if u ≥ 16 then hexDigitsAux fuel (u / 16) (hexDigit (u % 16) :: acc)
    else hexDigit u :: acc

/-- The digits the `%x` verb writes for an unsigned integer: lowercase, most
significant first, a single `0` for zero. -/
def hexDigits (x : Nat) : List Char :=
  hexDigitsAux x x []

/-- The `k` low hexadecimal digits of `x`, most significant first. -/
def fixedHex : Nat → Nat → List Char
  | 0, _ => []
  | k + 1, x => fixedHex k (x / 16) ++ [hexDigit (x % 16)]

/-- Go `fmt.Sprintf("%08x", x)`: the hexadecimal digits, padded on the left with
zeros to a width of 8. -/
def sprintf08x (x : Nat) : String :=
  let ds := hexDigits x
  String.mk (List.replicate (8 - ds.length) '0' ++ ds)

/-- The loop of `SubmitWork` that builds `solStr`: the elements in decimal,
separated by commas. -/
def solutionString (solution : List Nat) : String :=
  (solution.enum.foldl
    (fun solStr (p : Nat × Nat) =>
      let solStr := if p.1 > 0 then solStr ++ "," else solStr
      solStr ++ toString p.2) "")

/-- The request `SubmitWork(work, nonce2, nTime, nonce, solution)` builds and hands
to `call`, with the client after `nextID`. -/
def SubmitWork.request (c : Client) (work : Work) (nonce2 nTime : String) (nonce : Nat)
    (solution : List Nat) : Request × Client :=
  let solStr := solutionString solution
  let (id, c) := nextID c
  ({ ID := id
     Method := "mining.submit"
     Params := [c.username, work.JobID, nonce2, nTime, sprintf08x (ReverseBytes32 nonce), solStr] },
   c)

/-! ## `CheckDifficulty` (solver.go) -/

/-- Value of a byte slice read as a little-endian unsigned integer: the last byte
is the most significant. -/
def leValue (bs : List Byte) : Nat :=
  beValue bs.reverse

/-- The loop of `CheckDifficulty`: `n` iterations remain and the counter is `i`;
the bytes compared are `hash[31-i]` and `target[31-i]`.  Indexing past the end of
`target` panics. -/
def CheckDifficulty.loop (hash : Hash32) (target : List Byte) : Nat → Nat → Option Bool
  | 0, _ => some true
  | n + 1, i =>
    if i < target.length ∧ i < 32 then
      match hash.val[31 - i]?, target[31 - i]? with
      | some h, some t =>
        if h > t then some false
        else if h < t then some true
        else CheckDifficulty.loop hash target n (i + 1)
      | _, _ => none
    else some true

/-- The function `CheckDifficulty(hash, target)` with `hash` a `[32]byte`. -/
def CheckDifficulty (hash : Hash32) (target : List Byte) : Option Bool :=
  CheckDifficulty.loop hash target 32 0

/-! ## The client: connection state, notifications, reconnection (client.go) -/

/-- A value of the Go type `interface{}` as `encoding/json` decodes it. -/
inductive GoValue where
  | nil
  | bool (b : Bool)
  | float64 (v : Float64)
  | string (s : String)
  | slice (xs : List GoValue)
  | map (kvs : List (String × GoValue))

/-- The type assertion `v.(string)` with the comma-ok result; used without
comma-ok, `none` is a panic. -/
def GoValue.asString : GoValue → Option String
  | .string s => some s
  | _ => none

/-- The type assertion `v.(bool)` with the comma-ok result. -/
def GoValue.asBool : GoValue → Option Bool
  | .bool b => some b
  | _ => none

/-- The type assertion `v.(float64)` with the comma-ok result. -/
def GoValue.asFloat64 : GoValue → Option Float64
  | .float64 v => some v
  | _ => none

/-- The type assertion `v.([]interface{})` with the comma-ok result. -/
def GoValue.asSlice : GoValue → Option (List GoValue)
  | .slice xs => some xs
  | _ => none

deriving instance DecidableEq for Work

/-- What a method does besides changing the client: log lines, sleeps, callbacks
into the miner, connection attempts and the read task it starts. -/
inductive Event where
  | logged (msg : String)
  | slept (milliseconds : Nat)
  | newWork (work : Work)
  | reconnected
  | connectAttempt
  | readLoopStarted
  deriving DecidableEq

/-- The struct `Client` with the fields of connection state and current work added
to those of the pending-call bookkeeping.  `hasWorkHandler` is `onNewWork != nil`,
`hasReconnectHandler` is `onReconnect != nil`, `stopClosed` records that `stopCh`
has been closed. -/
structure ClientState extends Client where
  password : String
  connected : Bool
  subscribed : Bool
  authorized : Bool
  extraNonce1 : String
  extraNonce2Size : Int
  currentWork : Option Work
  hasWorkHandler : Bool
  hasReconnectHandler : Bool
  stopClosed : Bool
  difficulty : Float64
  deriving DecidableEq

/-- The decoders of `encoding/json` that `subscribe` and `authorize` use, taken as
parameters.  `unmarshalRawArray raw` is `json.Unmarshal(raw, &result)` with
`result []json.RawMessage` (`none` is a non-nil error); `unmarshalString raw old`
and `unmarshalInt raw old` give the variable after `json.Unmarshal(raw, &v)` when
it held `old` before (the error is discarded by the caller); `unmarshalBool raw`
is `json.Unmarshal(raw, &b)` on a fresh `bool`. -/
structure JSONCodec where
  unmarshalRawArray : String → Option (List String)
  unmarshalString : String → String → String
  unmarshalInt : String → Int → Int
  unmarshalBool : String → Option Bool

/-- The result of a method that returns an `error`: the client afterwards, what it
did, and the error message if the error is non-nil. -/
structure Step where
  state : ClientState
  events : List Event
  err : Option String
  deriving DecidableEq

/-- The method `call` on the whole client. -/
def ClientState.call (c : ClientState) (req : Request) (o : CallOutcome) :
    ClientState × Except String Response :=
  let r := Stratum.call c.toClient req o
  ({ c with toClient := r.1 }, r.2)

/-- The method `subscribe()`; `none` is a panic (index out of range). -/
def subscribe (codec : JSONCodec) (c : ClientState) (o : CallOutcome) : Option Step :=
  let idc := nextID c.toClient
  let c := { c with toClient := idc.2 }
  let req : Request := { ID := idc.1, Method := "mining.subscribe", Params := ["go-miner/1.0"] }
  match c.call req o with
  | (c, .error e) => some ⟨c, [], some e⟩
  | (c, .ok resp) =>
    match codec.unmarshalRawArray resp.Result with
    | none => some ⟨c, [], some "json: cannot unmarshal"⟩
    | some result =>
      if result.length ≥ 2 then
        match result[1]?, result[2]? with
        | some r1, some r2 =>
          let c := { c with extraNonce1 := codec.unmarshalString r1 c.extraNonce1 }
          let c := { c with extraNonce2Size := codec.unmarshalInt r2 c.extraNonce2Size }
          let c := { c with subscribed := true }
          some ⟨c, [.logged "Subscribed"], none⟩
        | _, _ => none
      else some ⟨c, [], none⟩

/-- The method `authorize()`. -/
def authorize (codec : JSONCodec) (c : ClientState) (o : CallOutcome) : Step :=
  let idc := nextID c.toClient
  let c := { c with toClient := idc.2 }
  let req : Request :=
    { ID := idc.1, Method := "mining.authorize", Params := [c.username, c.password] }
  match c.call req o with
  | (c, .error e) => ⟨c, [], some e⟩
  | (c, .ok resp) =>
    match codec.unmarshalBool resp.Result with
    | none => ⟨c, [], some "json: cannot unmarshal"⟩
    | some result =>
      if !result then ⟨c, [], some "authorization failed"⟩
      else ⟨{ c with authorized := true }, [.logged "Authorized"], none⟩

/-- The method `Close()`: `connected` is cleared and `stopCh` is closed; closing a
closed channel panics. -/
def Close (c : ClientState) : Option ClientState :=
  let c := { c with connected := false }
  if c.stopClosed then none else some { c with stopClosed := true }

/-- What the environment does during one `Connect`: whether `net.Dial` succeeds,
and the outcomes of the two calls. -/
structure ConnectEnv where
  dialOk : Bool
  subscribeOutcome : CallOutcome
  authorizeOutcome : CallOutcome
  deriving DecidableEq

/-- The method `Connect()`; `none` is a panic. -/
def Connect (codec : JSONCodec) (c : ClientState) (env : ConnectEnv) : Option Step :=
  let ev := [Event.logged "Connecting to pool", Event.connectAttempt]
  if !env.dialOk then some ⟨c, ev, some "failed to connect"⟩
  else
    let c := { c with connected := true }
    let ev := ev ++ [Event.readLoopStarted]
    match subscribe codec c env.subscribeOutcome with
    | none => none
    | some ⟨c, ev1, some e⟩ =>
      match Close c with
      | none => none
      | some c => some ⟨c, ev ++ ev1, some e⟩
    | some ⟨c, ev1, none⟩ =>
      match authorize codec c env.authorizeOutcome with
      | ⟨c, ev2, some e⟩ =>
        match Close c with
        | none => none
        | some c => some ⟨c, ev ++ ev1 ++ ev2, some e⟩
      | ⟨c, ev2, none⟩ =>
        some ⟨c, ev ++ ev1 ++ ev2 ++ [Event.logged "Connected and authorized"], none⟩

/-- How a run of the `reconnect` loop ends: it returned, it panicked, or it is
still retrying after the last environment step supplied. -/
inductive LoopResult where
  | finished (c : ClientState) (events : List Event)
  | panicked
  | retrying (c : ClientState) (events : List Event)
  deriving DecidableEq

/-- Put events in front of those of a loop result. -/
def LoopResult.after (ev : List Event) : LoopResult → LoopResult
  | .finished c es => .finished c (ev ++ es)
  | .panicked => .panicked
  | .retrying c es => .retrying c (ev ++ es)

/-- The method `reconnect()`: `for !c.connected.Load()`, try `Connect`; on failure
sleep 5 seconds and retry, on success invoke `onReconnect` and stop.  Each
iteration consumes one step of the environment. -/
def reconnect (codec : JSONCodec) : List ConnectEnv → ClientState → LoopResult
  | [], c => if !c.connected then .retrying c [] else .finished c []
  | env :: rest, c =>
    if !c.connected then
      match Connect codec c env with
      | none => .panicked
      | some ⟨c, ev, some _⟩ =>
        LoopResult.after
          ([Event.logged "Attempting reconnect..."] ++ ev
            ++ [Event.logged "Reconnect failed", Event.slept 5000])
          (reconnect codec rest c)
      | some ⟨c, ev, none⟩ =>
        .finished c ([Event.logged "Attempting reconnect..."] ++ ev
          ++ (if c.hasReconnectHandler then [Event.reconnected] else []))
    else .finished c []

/-- The method `handleReconnectRequest(params)`: a log line, then `go c.reconnect()`,
run here to its end. -/
def handleReconnectRequest (codec : JSONCodec) (c : ClientState) (_params : List GoValue)
    (envs : List ConnectEnv) : LoopResult :=
  LoopResult.after [Event.logged "Reconnect requested by pool"] (reconnect codec envs c)

/-- The method `handleDisconnect()`: `connected` is cleared, a log line, then
`go c.reconnect()`, run here to its end. -/
def handleDisconnect (codec : JSONCodec) (c : ClientState) (envs : List ConnectEnv) :
    LoopResult :=
  let c := { c with connected := false }
  LoopResult.after [Event.logged "Disconnected from pool"] (reconnect codec envs c)

/-- The polling loop of `handleMiningNotify`: up to `n` more rounds, each leaving
when `extraNonce1 != "" && extraNonce2Size > 0` and sleeping 50 ms otherwise.
The fields are those of the client at entry; a write by another task during the
sleep is not part of this sequential model. -/
def waitLoop (c : ClientState) : Nat → List Event
  | 0 => []
  | n + 1 =>
    if c.extraNonce1 ≠ "" ∧ c.extraNonce2Size > 0 then []
    else Event.slept 50 :: waitLoop c n

/-- The method `handleMiningNotify(params)`; `none` is a panic (a failed type
assertion without comma-ok). -/
def handleMiningNotify (c : ClientState) (params : List GoValue) :
    Option (ClientState × List Event) :=
  if params.length < 9 then some (c, [Event.logged "Invalid mining.notify params"])
  else
    let waited :=
      if c.extraNonce1 = "" ∨ c.extraNonce2Size = 0 then waitLoop c 20 else []
    match (params[0]?).bind GoValue.asString with
    | none => none
    | some jobID =>
    match (params[1]?).bind GoValue.asString with
    | none => none
    | some prevHash =>
    match (params[2]?).bind GoValue.asString with
    | none => none
    | some coinbase1 =>
    match (params[3]?).bind GoValue.asString with
    | none => none
    | some coinbase2 =>
    match (params[5]?).bind GoValue.asString with
    | none => none
    | some version =>
    match (params[6]?).bind GoValue.asString with
    | none => none
    | some nBits =>
    match (params[7]?).bind GoValue.asString with
    | none => none
    | some nTime =>
    match (params[8]?).bind GoValue.asBool with
    | none => none
    | some cleanJobs =>
    let work : Work :=
      { JobID := jobID
        PrevHash := prevHash
        Coinbase1 := coinbase1
        Coinbase2 := coinbase2
        MerkleBranch := []
        Version := version
        NBits := nBits
        NTime := nTime
        CleanJobs := cleanJobs
        ExtraNonce1 := c.extraNonce1
        ExtraNonce2Size := c.extraNonce2Size
        Target := []
        difficulty := .finite false 0 0 }
    let work :=
      match (params[4]?).bind GoValue.asSlice with
      | some branches =>
        { work with MerkleBranch := work.MerkleBranch ++ branches.filterMap GoValue.asString }
      | none => work
    let c := { c with currentWork := some work }
    let called := if c.hasWorkHandler then [Event.newWork work] else []
    some (c, waited ++ called ++ [Event.logged "New work"])

/-- The method `handleSetDifficulty(params)`. -/
def handleSetDifficulty (c : ClientState) (params : List GoValue) : ClientState × List Event :=
  if params.length > 0 then
    match (params[0]?).bind GoValue.asFloat64 with
    | some diff => ({ c with difficulty := diff }, [Event.logged "Difficulty set"])
    | none => (c, [])
  else (c, [])

/-- The struct `Notification`. -/
structure Notification where
  Method : String
  Params : List GoValue

/-- The method `handleNotification(notif)`: dispatch on the method name; any other
name is ignored.  `envs` is the environment of a reconnect loop it may start. -/
def handleNotification (codec : JSONCodec) (c : ClientState) (notif : Notification)
    (envs : List ConnectEnv) : LoopResult :=
  if notif.Method = "mining.notify" then
    match handleMiningNotify c notif.Params with
    | some (c, ev) => .finished c ev
    | none => .panicked
  else if notif.Method = "mining.set_difficulty" then
    .finished (handleSetDifficulty c notif.Params).1 (handleSetDifficulty c notif.Params).2
  else if notif.Method = "client.reconnect" then
    handleReconnectRequest codec c notif.Params envs
  else .finished c []

/-! ## Concrete inputs used to instantiate the theorems -/

/-- A stand-in for `sha256.Sum256` with the right result size: 32 copies of the
low byte of the input length. -/
def toySum256 (data : List Byte) : Hash32 :=
  ⟨List.replicate 32 (Fin.ofNat data.length), List.length_replicate _ _⟩

/-- A job with one merkle branch, as `handleMiningNotify` would build it. -/
def exampleWork : Work where
  JobID := "1f"
  PrevHash := "00000000000000000001a2b3c4d5e6f708192a3b4c5d6e7f8091a2b3c4d5e6f7"
  Coinbase1 := "01000000"
  Coinbase2 := "ffffffff"
  MerkleBranch := ["a1b2c3d4", "0e0f"]
  Version := "20000000"
  NBits := "1d00ffff"
  NTime := "5f5e1000"
  CleanJobs := true
  ExtraNonce1 := "08000002"
  ExtraNonce2Size := 4
  Target := []
  difficulty := .finite false 1 0

/-- A decoder instance that knows the raw results used below: arrays of `null`
entries with an optional size 4, and the booleans. -/
def exampleCodec : JSONCodec where
  unmarshalRawArray raw :=
    if raw = "[null,null]" then some ["null", "null"]
    else if raw = "[null,null,4]" then some ["null", "null", "4"]
    else none
  unmarshalString _ old := old
  unmarshalInt raw old := if raw = "4" then 4 else old
  unmarshalBool raw :=
    if raw = "true" then some true else if raw = "false" then some false else none

/-- A connected, subscribed and authorized client with both callbacks set. -/
def exampleClient : ClientState where
  username := "wallet.worker"
  msgID := 2
  pending := []
  nextChan := 2
  password := "x"
  connected := true
  subscribed := true
  authorized := true
  extraNonce1 := "08000002"
  extraNonce2Size := 4
  currentWork := none
  hasWorkHandler := true
  hasReconnectHandler := true
  stopClosed := false
  difficulty := .finite false 1 0

/-- The all-zero hash. -/
def zeroHash : Hash32 :=
  ⟨makeBytes 32, List.length_replicate _ _⟩

/-- The hash of the third case of `TestDifficultyCheck`: all zero but
`hash[31] = 0x03`. -/
def testHash : Hash32 :=
  ⟨List.replicate 31 0 ++ [3], by decide⟩

/-- The target of the third case of `TestDifficultyCheck`: `target[0] = 0xff`,
`target[1] = 0xff`, `target[31] = 0x02`. -/
def testTarget : List Byte :=
  [255, 255] ++ List.replicate 29 0 ++ [2]

/-! ## Lemmas on big-endian values -/

theorem beValue_foldl (bs : List Byte) (a : Nat) :
    bs.foldl (fun acc b => acc * 256 + b.val) a = a * 256 ^ bs.length + beValue bs := by
  induction bs generalizing a with
  | nil => simp [beValue]
  | cons b bs ih =>
    simp only [List.foldl_cons, List.length_cons, beValue]
    rw [ih (a * 256 + b.val), ih (0 * 256 + b.val)]
    simp only [beValue]
    ring

theorem beValue_cons (b : Byte) (bs : List Byte) :
    beValue (b :: bs) = b.val * 256 ^ bs.length + beValue bs := by
  simp only [beValue, List.foldl_cons]
  rw [beValue_foldl]
  simp [beValue]

theorem beValue_lt (bs : List Byte) : beValue bs < 256 ^ bs.length := by
  induction bs with
  | nil => simp [beValue]
  | cons b bs ih =>
    rw [beValue_cons, List.length_cons, pow_succ]
    have hb := b.isLt
    nlinarith [ih, hb]

theorem beValue_append (as bs : List Byte) :
    beValue (as ++ bs) = beValue as * 256 ^ bs.length + beValue bs := by
  simp only [beValue, List.foldl_append]
  rw [beValue_foldl]
  simp [beValue]

theorem beValue_replicate_zero (n : Nat) : beValue (List.replicate n (0 : Byte)) = 0 := by
  induction n with
  | zero => rfl
  | succ n ih => rw [List.replicate_succ, beValue_cons, ih]; simp

/-- The loop of `CheckTarget` decides `≤` on the big-endian values of the bytes
it has not yet scanned. -/
theorem CheckTarget.loop_eq (hash target : List Byte) (n i : Nat)
    (hh : hash.length = i + n) (ht : target.length = i + n) :
    CheckTarget.loop hash target n i
      = some (decide (beValue (hash.drop i) ≤ beValue (target.drop i))) := by
  induction n generalizing i with
  | zero =>
    have h1 : hash.drop i = [] := List.drop_eq_nil_of_le (by omega)
    have h2 : target.drop i = [] := List.drop_eq_nil_of_le (by omega)
    simp [CheckTarget.loop, h1, h2]
  | succ n ih =>
    have hi : i < hash.length := by omega
    have ti : i < target.length := by omega
    have hd : hash.drop i = hash[i] :: hash.drop (i + 1) := List.drop_eq_getElem_cons hi
    have td : target.drop i = target[i] :: target.drop (i + 1) := List.drop_eq_getElem_cons ti
    have hl : (hash.drop (i + 1)).length = n := by simp; omega
    have tl : (target.drop (i + 1)).length = n := by simp; omega
    have hb := beValue_lt (hash.drop (i + 1))
    have tb := beValue_lt (target.drop (i + 1))
    rw [hl] at hb
    rw [tl] at tb
    have hp : 0 < 256 ^ n := by positivity
    simp only [CheckTarget.loop, List.getElem?_eq_getElem hi, List.getElem?_eq_getElem ti]
    rw [hd, td, beValue_cons, beValue_cons, hl, tl]
    by_cases h1 : hash[i] < target[i]
    · simp only [h1, if_true]
      have h1v : hash[i].val + 1 ≤ target[i].val := h1
      have : hash[i].val * 256 ^ n + 256 ^ n ≤ target[i].val * 256 ^ n := by nlinarith
      simp only [Option.some.injEq, true_eq_decide_iff]
      omega
    · by_cases h2 : hash[i] > target[i]
      · simp only [h1, h2, if_true, if_false]
        have h2v : target[i].val + 1 ≤ hash[i].val := h2
        have : target[i].val * 256 ^ n + 256 ^ n ≤ hash[i].val * 256 ^ n := by nlinarith
        simp only [Option.some.injEq, false_eq_decide_iff]
        omega
      · simp only [h1, h2, if_false]
        have he : hash[i] = target[i] := le_antisymm (not_lt.mp h2) (not_lt.mp h1)
        rw [ih (i + 1) (by omega) (by omega), he]
        simp

/-! ## C1: `CheckTarget` -/

/-- C1 (as stated, refuted): `CheckTarget` is not a strict comparison.  On the
all-zero hash and the all-zero target it returns true although the big-endian
value of the hash is not strictly below that of the target. -/
theorem CheckTarget_not_strict :
    ¬ (CheckTarget (makeBytes 32) (makeBytes 32) = some true
        ↔ beValue (makeBytes 32) < beValue (makeBytes 32)) := by
  decide

/-- C1 (amended): for every 32-byte hash and every 32-byte target, `CheckTarget`
returns normally, and returns true exactly when the big-endian 256-bit value of
the hash is less than or equal to that of the target; equal values are accepted. -/
theorem CheckTarget_iff_le (hash target : List Byte)
    (hh : hash.length = 32) (ht : target.length = 32) :
    CheckTarget hash target = some (decide (beValue hash ≤ beValue target)) := by
  have h := CheckTarget.loop_eq hash target 32 0 (by omega) (by omega)
  simpa [CheckTarget] using h

/-- Witness for C1: the theorem applied to the all-zero hash and an all-`0xff`
target. -/
theorem CheckTarget_iff_le_witness :
    CheckTarget (makeBytes 32) (List.replicate 32 255)
      = some (decide (beValue (makeBytes 32) ≤ beValue (List.replicate 32 255))) :=
  CheckTarget_iff_le (makeBytes 32) (List.replicate 32 255) (by decide) (by decide)

/-! ## C2: the nonce parameter of `mining.submit` -/

theorem fixedHex_zero (k : Nat) : fixedHex k 0 = List.replicate k '0' := by
  induction k with
  | zero => rfl
  | succ k ih =>
    simp only [fixedHex, Nat.zero_div, ih, Nat.zero_mod]
    rw [List.replicate_succ']
    rfl

theorem hexDigitsAux_acc (fuel u : Nat) (acc : List Char) :
    hexDigitsAux fuel u acc = hexDigitsAux fuel u [] ++ acc := by
  induction fuel generalizing u acc with
  | zero => simp [hexDigitsAux]
  | succ f ih =>
    simp only [hexDigitsAux]
    split
    · rw [ih (u / 16) (hexDigit (u % 16) :: acc), ih (u / 16) [hexDigit (u % 16)]]
      simp
    · simp

theorem hexDigitsAux_length_le (k : Nat) : ∀ fuel u : Nat, u < 16 ^ (k + 1) → u ≤ fuel →
    (hexDigitsAux fuel u []).length ≤ k + 1 := by
  induction k with
  | zero =>
    intro fuel u hu _
    have hu16 : ¬ u ≥ 16 := by omega
    cases fuel <;> simp [hexDigitsAux, hu16]
  | succ k ih =>
    intro fuel u hu hf
    by_cases h16 : u ≥ 16
    · obtain ⟨f, rfl⟩ : ∃ f, fuel = f + 1 := ⟨fuel - 1, by omega⟩
      simp only [hexDigitsAux, h16, if_true]
      rw [hexDigitsAux_acc]
      have := ih f (u / 16) (by rw [pow_succ] at hu; omega) (by omega)
      simp
      omega
    · cases fuel <;> simp [hexDigitsAux, h16]

theorem pad_hexDigitsAux (k : Nat) : ∀ fuel u : Nat, u < 16 ^ (k + 1) → u ≤ fuel →
    List.replicate (k + 1 - (hexDigitsAux fuel u []).length) '0' ++ hexDigitsAux fuel u []
      = fixedHex (k + 1) u := by
  induction k with
  | zero =>
    intro fuel u hu _
    have hu16 : ¬ u ≥ 16 := by omega
    have hm : u % 16 = u := by omega
    cases fuel <;> simp [hexDigitsAux, hu16, fixedHex, hm]
  | succ k ih =>
    intro fuel u hu hf
    by_cases h16 : u ≥ 16
    · obtain ⟨f, rfl⟩ : ∃ f, fuel = f + 1 := ⟨fuel - 1, by omega⟩
      have hlen := hexDigitsAux_length_le k f (u / 16) (by rw [pow_succ] at hu; omega) (by omega)
      have := ih f (u / 16) (by rw [pow_succ] at hu; omega) (by omega)
      simp only [hexDigitsAux, h16, if_true]
      rw [hexDigitsAux_acc, fixedHex, ← this]
      simp only [List.length_append, List.length_singleton, List.append_assoc]
      congr 2
      omega
    · have hd : u / 16 = 0 := by omega
      have hm : u % 16 = u := by omega
      have hx : hexDigitsAux fuel u [] = [hexDigit u] := by
        cases fuel <;> simp [hexDigitsAux, h16]
      rw [hx, fixedHex, hd, fixedHex_zero, hm]
      simp

/-- For a value below `2^32`, `%08x` writes exactly its eight hexadecimal digits. -/
theorem sprintf08x_eq (x : Nat) (hx : x < 2 ^ 32) :
    sprintf08x x = String.mk (fixedHex 8 x) := by
  have := pad_hexDigitsAux 7 x x (by norm_num at hx ⊢; omega) le_rfl
  simp only [sprintf08x, hexDigits]
  rw [← this]

theorem ReverseBytes32_lt (x : Nat) : ReverseBytes32 x < 2 ^ 32 := by
  simp only [ReverseBytes32]
  omega

theorem fixedHex_bytes (b0 b1 b2 b3 : Nat) (h0 : b0 < 256) (h1 : b1 < 256) (h2 : b2 < 256)
    (h3 : b3 < 256) :
    fixedHex 8 (b0 * 2 ^ 24 + b1 * 2 ^ 16 + b2 * 2 ^ 8 + b3)
      = [hexDigit (b0 / 16), hexDigit (b0 % 16), hexDigit (b1 / 16), hexDigit (b1 % 16),
         hexDigit (b2 / 16), hexDigit (b2 % 16), hexDigit (b3 / 16), hexDigit (b3 % 16)] := by
  simp only [fixedHex, List.nil_append, List.cons_append, List.append_assoc]
  have e7 : (b0 * 2 ^ 24 + b1 * 2 ^ 16 + b2 * 2 ^ 8 + b3) / 16 / 16 / 16 / 16 / 16 / 16 / 16 % 16
      = b0 / 16 := by omega
  have e6 : (b0 * 2 ^ 24 + b1 * 2 ^ 16 + b2 * 2 ^ 8 + b3) / 16 / 16 / 16 / 16 / 16 / 16 % 16
      = b0 % 16 := by omega
  have e5 : (b0 * 2 ^ 24 + b1 * 2 ^ 16 + b2 * 2 ^ 8 + b3) / 16 / 16 / 16 / 16 / 16 % 16
      = b1 / 16 := by omega
  have e4 : (b0 * 2 ^ 24 + b1 * 2 ^ 16 + b2 * 2 ^ 8 + b3) / 16 / 16 / 16 / 16 % 16
      = b1 % 16 := by omega
  have e3 : (b0 * 2 ^ 24 + b1 * 2 ^ 16 + b2 * 2 ^ 8 + b3) / 16 / 16 / 16 % 16
      = b2 / 16 := by omega
  have e2 : (b0 * 2 ^ 24 + b1 * 2 ^ 16 + b2 * 2 ^ 8 + b3) / 16 / 16 % 16
      = b2 % 16 := by omega
  have e1 : (b0 * 2 ^ 24 + b1 * 2 ^ 16 + b2 * 2 ^ 8 + b3) / 16 % 16
      = b3 / 16 := by omega
  have e0 : (b0 * 2 ^ 24 + b1 * 2 ^ 16 + b2 * 2 ^ 8 + b3) % 16
      = b3 % 16 := by omega
  rw [e7, e6, e5, e4, e3, e2, e1, e0]

/-- C2 (as stated, refuted): the nonce `0x01020304` is not sent as `"01020304"`;
the request carries `"04030201"`. -/
theorem SubmitWork_nonce_not_big_endian :
    ((SubmitWork.request ⟨"user", 0, [], 0⟩
        ⟨"job", "", "", "", [], "", "", "", false, "", 4, [], .finite false 1 0⟩
        "00000001" "5f5e1000" 0x01020304 [1, 2, 3]).1.Params)[4]? = some "04030201"
    ∧ ((SubmitWork.request ⟨"user", 0, [], 0⟩
        ⟨"job", "", "", "", [], "", "", "", false, "", 4, [], .finite false 1 0⟩
        "00000001" "5f5e1000" 0x01020304 [1, 2, 3]).1.Params)[4]? ≠ some "01020304" := by
  decide

/-- C2 (amended): for every 32-bit nonce, the nonce parameter (fifth element of
params) of the `mining.submit` request built by `SubmitWork` is the 8-hex-digit
encoding of the byte-reversed nonce, that is the hex string of the four bytes of
the nonce with the least significant byte written first (nonce `0x01020304` is
sent as `"04030201"`). -/
theorem SubmitWork_nonce_little_endian (c : Client) (work : Work) (nonce2 nTime : String)
    (nonce : Nat) (solution : List Nat) :
    (SubmitWork.request c work nonce2 nTime nonce solution).1.Method = "mining.submit"
    ∧ ((SubmitWork.request c work nonce2 nTime nonce solution).1.Params)[4]?
      = some (EncodeToString
          [Fin.ofNat nonce, Fin.ofNat (nonce / 2 ^ 8), Fin.ofNat (nonce / 2 ^ 16),
            Fin.ofNat (nonce / 2 ^ 24)]) := by
  refine ⟨rfl, ?_⟩
  simp only [SubmitWork.request, List.getElem?_cons_succ, List.getElem?_cons_zero]
  rw [sprintf08x_eq _ (ReverseBytes32_lt nonce)]
  have h0 : nonce % 256 < 256 := Nat.mod_lt _ (by norm_num)
  have h1 : nonce / 2 ^ 8 % 256 < 256 := Nat.mod_lt _ (by norm_num)
  have h2 : nonce / 2 ^ 16 % 256 < 256 := Nat.mod_lt _ (by norm_num)
  have h3 : nonce / 2 ^ 24 % 256 < 256 := Nat.mod_lt _ (by norm_num)
  have := fixedHex_bytes _ _ _ _ h0 h1 h2 h3
  simp only [ReverseBytes32, this, EncodeToString, encodeChars, encodeByte, Fin.ofNat,
    List.nil_append, List.cons_append, List.append_nil]


/-! ## C3: the pending-call map after a timeout -/

/-- The sibling path: when the reply arrives, `handleResponse` deletes the
identifier, so the pending map no longer holds it after `call`. -/
theorem call_reply_forgets (c : Client) (req : Request) (result : String)
    (err : Option RPCError) :
    pendingLookup (call c req (.reply result err)).1.pending req.ID = none := by
  have hdel : ∀ (l : List (Int × Nat)) (k : Int), pendingLookup (pendingDelete l k) k = none := by
    intro l k
    induction l with
    | nil => rfl
    | cons e l ih =>
      simp only [pendingLookup, pendingDelete] at ih ⊢
      by_cases hk : e.1 = k
      · simp only [List.filter_cons, hk, beq_self_eq_true, Bool.not_true, Bool.false_eq_true,
          if_false]
        exact ih
      · have hb : (e.1 == k) = false := by simpa using hk
        simp only [List.filter_cons, hb, Bool.not_false, if_true, List.find?_cons]
        exact ih
  have hl : pendingLookup (pendingStore c.pending req.ID c.nextChan) req.ID = some c.nextChan := by
    simp [pendingLookup, pendingStore]
  cases err <;>
    simp only [call, call.register, handleResponse, hl] <;>
    · simp only [pendingStore, pendingDelete, List.filter_cons, beq_self_eq_true, Bool.not_true,
        Bool.false_eq_true, if_false]
      exact hdel _ _

/-- C3 (code defect): on the timeout outcome `call` returns the timeout error, but
the request's identifier is still in the pending map afterwards, for every client
state and every request; the timeout branch never deletes it. -/
theorem call_timeout_leaks (c : Client) (req : Request) :
    (call c req .timeout).2 = .error "RPC timeout"
    ∧ pendingLookup (call c req .timeout).1.pending req.ID = some c.nextChan := by
  simp [call, call.register, pendingLookup, pendingStore]

/-- C3 at the failing input: a fresh client (empty pending map) and the request
with identifier 1; after the timeout the map is `[(1, 0)]`, not the empty map it
was before. -/
theorem timeout_leak_on_fresh_client :
    (call ⟨"user", 0, [], 0⟩ ⟨1, "mining.subscribe", ["go-miner/1.0"]⟩ .timeout).1.pending
      = [(1, 0)] := by
  decide

/-! ## C4: the layout of the header -/

theorem reverseBytes_eq_reverse (data : List Byte) : reverseBytes data = data.reverse := by
  apply List.ext_getElem
  · simp [reverseBytes]
  · intro i h1 h2
    simp [reverseBytes, List.getElem_reverse]

theorem copyAt_append (a rest src : List Byte) (lo hi : Nat) (ha : a.length = lo)
    (hs : src.length = hi - lo) :
    copyAt (a ++ rest) lo hi src = a ++ src ++ rest.drop src.length := by
  subst ha
  simp only [copyAt, hs, min_self]
  rw [List.take_left, ← hs, List.take_length, List.drop_append]

theorem merkleLoop_eq (Sum256 : List Byte → Hash32) (branches : List String) :
    ∀ (decoded : List (List Byte)) (root : List Byte),
      branches.map DecodeString = decoded.map some →
      merkleLoop Sum256 root branches
        = .ok (decoded.foldl (fun r b => sha256d Sum256 (r ++ b)) root) := by
  induction branches with
  | nil =>
    intro decoded root h
    cases decoded with
    | nil => rfl
    | cons d ds => simp at h
  | cons s rest ih =>
    intro decoded root h
    cases decoded with
    | nil => simp at h
    | cons d ds =>
      simp only [List.map_cons, List.cons.injEq] at h
      simp only [merkleLoop, h.1, List.foldl_cons]
      exact ih ds _ h.2

theorem sha256d_length (Sum256 : List Byte → Hash32) (data : List Byte) :
    (sha256d Sum256 data).length = 32 :=
  (Sum256 (Sum256 data).val).property

theorem merkleFold_length (Sum256 : List Byte → Hash32) (decoded : List (List Byte)) :
    ∀ root : List Byte, root.length = 32 →
      (decoded.foldl (fun r b => sha256d Sum256 (r ++ b)) root).length = 32 := by
  induction decoded with
  | nil => intro root h; exact h
  | cons d ds ih => intro root _; exact ih _ (sha256d_length Sum256 _)

/-- The five `copy` statements of `BuildHeader` on fields of the expected sizes. -/
theorem BuildHeader_copies (rv rp root rt rb : List Byte) (hvr : rv.length = 4)
    (hpr : rp.length = 32) (hroot : root.length = 32) (htr : rt.length = 4)
    (hbr : rb.length = 4) :
    copyAt (copyAt (copyAt (copyAt (copyAt (makeBytes 80) 0 4 rv) 4 36 rp) 36 68 root) 68 72 rt)
        72 76 rb
      = rv ++ rp ++ root ++ rt ++ rb ++ [0, 0, 0, 0] := by
  have s1 : copyAt (makeBytes 80) 0 4 rv = rv ++ List.replicate 76 0 := by
    have := copyAt_append [] (makeBytes 80) rv 0 4 rfl (by rw [hvr])
    rw [List.nil_append, List.nil_append, hvr] at this
    rw [this]; rfl
  have s2 : copyAt (rv ++ List.replicate 76 0) 4 36 rp = (rv ++ rp) ++ List.replicate 44 0 := by
    rw [copyAt_append rv _ rp 4 36 hvr (by rw [hpr]), hpr]; rfl
  have s3 : copyAt ((rv ++ rp) ++ List.replicate 44 0) 36 68 root
      = (rv ++ rp ++ root) ++ List.replicate 12 0 := by
    rw [copyAt_append (rv ++ rp) _ root 36 68 (by simp [hvr, hpr]) (by rw [hroot]), hroot]; rfl
  have s4 : copyAt ((rv ++ rp ++ root) ++ List.replicate 12 0) 68 72 rt
      = (rv ++ rp ++ root ++ rt) ++ List.replicate 8 0 := by
    rw [copyAt_append (rv ++ rp ++ root) _ rt 68 72 (by simp [hvr, hpr, hroot]) (by rw [htr]),
      htr]; rfl
  have s5 : copyAt ((rv ++ rp ++ root ++ rt) ++ List.replicate 8 0) 72 76 rb
      = (rv ++ rp ++ root ++ rt ++ rb) ++ List.replicate 4 0 := by
    rw [copyAt_append (rv ++ rp ++ root ++ rt) _ rb 72 76 (by simp [hvr, hpr, hroot, htr])
      (by rw [hbr]), hbr]; rfl
  rw [s1, s2, s3, s4, s5]
  rfl

/-- C4: for a job whose version, time and bits fields are hex for 4 bytes, whose
previous-hash is hex for 32 bytes, and whose coinbase concatenation and merkle
branches are valid hex, `BuildHeader` succeeds and returns exactly 80 bytes:
reverse(version) ++ reverse(prevhash) ++ root ++ reverse(time) ++ reverse(bits) ++
four zero bytes, where root is the left fold of `r ↦ sha256d(r ++ branch_i)` over
the decoded branches starting from sha256d of the decoded coinbase, written
unreversed; with no branches the root is sha256d of the coinbase. -/
theorem BuildHeader_layout (Sum256 : List Byte → Hash32) (work : Work) (extraNonce2 : String)
    (version prevHash ntime nbits coinbaseBytes : List Byte) (branches : List (List Byte))
    (hv : DecodeString work.Version = some version) (hvl : version.length = 4)
    (hp : DecodeString work.PrevHash = some prevHash) (hpl : prevHash.length = 32)
    (ht : DecodeString work.NTime = some ntime) (htl : ntime.length = 4)
    (hb : DecodeString work.NBits = some nbits) (hbl : nbits.length = 4)
    (hc : DecodeString (work.Coinbase1 ++ work.ExtraNonce1 ++ extraNonce2 ++ work.Coinbase2)
      = some coinbaseBytes)
    (hm : work.MerkleBranch.map DecodeString = branches.map some) :
    BuildHeader Sum256 work extraNonce2
        = .ok (version.reverse ++ prevHash.reverse
            ++ branches.foldl (fun r b => sha256d Sum256 (r ++ b)) (sha256d Sum256 coinbaseBytes)
            ++ ntime.reverse ++ nbits.reverse ++ [0, 0, 0, 0])
    ∧ (version.reverse ++ prevHash.reverse
            ++ branches.foldl (fun r b => sha256d Sum256 (r ++ b)) (sha256d Sum256 coinbaseBytes)
            ++ ntime.reverse ++ nbits.reverse ++ [0, 0, 0, 0]).length = 80
    ∧ (work.MerkleBranch = [] →
        branches.foldl (fun r b => sha256d Sum256 (r ++ b)) (sha256d Sum256 coinbaseBytes)
          = sha256d Sum256 coinbaseBytes) := by
  have hroot := merkleFold_length Sum256 branches _ (sha256d_length Sum256 coinbaseBytes)
  refine ⟨?_, ?_, ?_⟩
  · unfold BuildHeader
    simp only [hv, hp, hc, ht, hb, merkleLoop_eq Sum256 work.MerkleBranch branches _ hm,
      reverseBytes_eq_reverse]
    exact congrArg Except.ok (BuildHeader_copies _ _ _ _ _ (by rw [List.length_reverse, hvl])
      (by rw [List.length_reverse, hpl]) hroot (by rw [List.length_reverse, htl])
      (by rw [List.length_reverse, hbl]))
  · simp [hvl, hpl, hroot, htl, hbl]
  · intro hnil
    rw [hnil] at hm
    cases branches with
    | nil => rfl
    | cons d ds => simp at hm

/-- Witness for C4: the theorem applied to `exampleWork` with extranonce2
`"00000001"`. -/
theorem BuildHeader_layout_witness :
    ∃ header, BuildHeader toySum256 exampleWork "00000001" = .ok header ∧ header.length = 80 :=
  have h := BuildHeader_layout toySum256 exampleWork "00000001"
    [0x20, 0, 0, 0]
    [0, 0, 0, 0, 0, 0, 0, 0, 0, 0x01, 0xa2, 0xb3, 0xc4, 0xd5, 0xe6, 0xf7,
      0x08, 0x19, 0x2a, 0x3b, 0x4c, 0x5d, 0x6e, 0x7f, 0x80, 0x91, 0xa2, 0xb3, 0xc4, 0xd5, 0xe6, 0xf7]
    [0x5f, 0x5e, 0x10, 0x00] [0x1d, 0x00, 0xff, 0xff]
    [1, 0, 0, 0, 8, 0, 0, 2, 0, 0, 0, 1, 0xff, 0xff, 0xff, 0xff]
    [[0xa1, 0xb2, 0xc3, 0xd4], [0x0e, 0x0f]]
    (by decide) (by decide) (by decide) (by decide) (by decide) (by decide) (by decide)
    (by decide) (by decide) (by decide)
  ⟨_, h.1, h.2.1⟩

/-! ## C5: `GenerateExtraNonce2` -/

theorem encodeChars_length (bs : List Byte) : (encodeChars bs).length = 2 * bs.length := by
  induction bs with
  | nil => rfl
  | cons b bs ih =>
    simp only [encodeChars, encodeByte, List.cons_append, List.nil_append, List.length_cons, ih]
    omega

theorem PutUint64_bytes (b : List Byte) (v : Nat) (hb : 8 ≤ b.length) :
    PutUint64 b v = some ((List.range 8).map (fun i => (Fin.ofNat (v / 256 ^ i) : Byte))
      ++ b.drop 8) := by
  simp only [PutUint64, hb, if_true, Option.some.injEq, List.append_cancel_right_eq]
  apply List.map_congr_left
  intro i _
  rw [Nat.shiftRight_eq_div_pow, pow_mul]
  norm_num

/-- The bytes `GenerateExtraNonce2` encodes: `size` bytes, byte `i` being
`(counter >> 8*i) & 0xff` for `i < 8` and `0` beyond. -/
theorem extraNonce2_bytes_large (n v : Nat) (hn : 8 ≤ n) :
    (List.range 8).map (fun i => (Fin.ofNat (v / 256 ^ i) : Byte)) ++ (makeBytes n).drop 8
      = (List.range n).map (fun i => if i < 8 then (Fin.ofNat (v / 256 ^ i) : Byte) else 0) := by
  apply List.ext_getElem
  · simp [makeBytes]; omega
  · intro i h1 h2
    by_cases hi : i < 8
    · rw [List.getElem_append_left (by simpa using hi)]
      simp [hi]
    · rw [List.getElem_append_right (by simpa using hi)]
      simp [hi, makeBytes]

theorem extraNonce2_bytes_small (n v : Nat) (hn : n < 8) :
    copyAt (makeBytes n) 0 (makeBytes n).length
        (((List.range 8).map (fun i => (Fin.ofNat (v / 256 ^ i) : Byte))
          ++ (makeBytes 8).drop 8).take n)
      = (List.range n).map (fun i => if i < 8 then (Fin.ofNat (v / 256 ^ i) : Byte) else 0) := by
  apply List.ext_getElem
  · simp [copyAt, makeBytes]
  · intro i h1 h2
    have hi : i < n := by simpa using h2
    have hi8 : i < 8 := by omega
    simp only [copyAt, makeBytes, List.take_zero, List.nil_append, List.length_replicate,
      Nat.sub_zero, List.drop_replicate]
    rw [List.getElem_append_left (by simp; omega)]
    simp [List.getElem_take, List.getElem_append_left, hi8]

theorem extraNonce2_encoding (size : Int) (counter : Nat) (hs : 0 ≤ size) :
    GenerateExtraNonce2 size counter
      = some (EncodeToString ((List.range size.toNat).map
          (fun i => if i < 8 then (Fin.ofNat (counter / 256 ^ i) : Byte) else 0))) := by
  have hneg : ¬ size < 0 := by omega
  simp only [GenerateExtraNonce2, hneg, if_false]
  by_cases h8 : size ≥ 8
  · have hl : 8 ≤ (makeBytes size.toNat).length := by simp [makeBytes]; omega
    simp only [h8, if_true, PutUint64_bytes _ _ hl]
    rw [extraNonce2_bytes_large _ _ (by omega)]
  · have hl : 8 ≤ (makeBytes 8).length := by simp [makeBytes]
    simp only [h8, if_false, PutUint64_bytes _ _ hl]
    rw [extraNonce2_bytes_small _ _ (by omega)]

/-- C5: for every size ≥ 0 and every counter, `GenerateExtraNonce2(size, counter)`
is the lowercase hex string of exactly `size` bytes (`2*size` characters) whose
byte `i` is `(counter >> 8*i) & 0xff` for `i < 8` and `0` for `i ≥ 8`; size 0 gives
the empty string, `(4, 1)` gives `"01000000"` and `(2, 0x1234)` gives `"3412"`. -/
theorem GenerateExtraNonce2_spec :
    (∀ (size : Int) (counter : Nat), 0 ≤ size →
      ∃ s, GenerateExtraNonce2 size counter = some s
        ∧ s = EncodeToString ((List.range size.toNat).map
            (fun i => if i < 8 then (Fin.ofNat (counter / 256 ^ i) : Byte) else 0))
        ∧ s.length = 2 * size.toNat)
    ∧ (∀ counter : Nat, GenerateExtraNonce2 0 counter = some "")
    ∧ GenerateExtraNonce2 4 1 = some "01000000"
    ∧ GenerateExtraNonce2 2 0x1234 = some "3412" := by
  refine ⟨?_, ?_, by decide, by decide⟩
  · intro size counter hs
    refine ⟨_, extraNonce2_encoding size counter hs, rfl, ?_⟩
    simp [EncodeToString, String.length, encodeChars_length]
  · intro counter
    rw [extraNonce2_encoding 0 counter le_rfl]
    rfl

/-- Witness for C5: the theorem applied to size 3 and counter `0xa1b2c3d4`. -/
theorem GenerateExtraNonce2_spec_witness :
    ∃ s, GenerateExtraNonce2 3 0xa1b2c3d4 = some s
      ∧ s = EncodeToString ((List.range (3 : Int).toNat).map
          (fun i => if i < 8 then (Fin.ofNat (0xa1b2c3d4 / 256 ^ i) : Byte) else 0))
      ∧ s.length = 2 * (3 : Int).toNat :=
  GenerateExtraNonce2_spec.1 3 0xa1b2c3d4 (by decide)

/-! ## C6: collisions of extranonce2 values -/

theorem fromHexChar_hexDigit : ∀ n : Fin 16, fromHexChar (hexDigit n.val) = some n := by
  decide

theorem decodeChars_encodeChars (bs : List Byte) : decodeChars (encodeChars bs) = some bs := by
  induction bs with
  | nil => rfl
  | cons b bs ih =>
    have h1 := fromHexChar_hexDigit ⟨b.val / 16, by omega⟩
    have h2 := fromHexChar_hexDigit ⟨b.val % 16, by omega⟩
    simp only at h1 h2
    show decodeChars (hexDigit (b.val / 16) :: hexDigit (b.val % 16) :: encodeChars bs) = _
    simp only [decodeChars, h1, h2, ih]
    congr 2
    apply Fin.ext
    simp only [joinNibbles]
    omega

theorem EncodeToString_injective (as bs : List Byte)
    (h : EncodeToString as = EncodeToString bs) : as = bs := by
  have hc : encodeChars as = encodeChars bs := congrArg String.data h
  have := decodeChars_encodeChars as
  rw [hc, decodeChars_encodeChars] at this
  exact (Option.some.inj this).symm

theorem digits_eq_iff_mod_eq (c1 c2 : Nat) (k : Nat) :
    (∀ i < k, c1 / 256 ^ i % 256 = c2 / 256 ^ i % 256) ↔ c1 % 256 ^ k = c2 % 256 ^ k := by
  induction k with
  | zero => simp [Nat.mod_one]
  | succ k ih =>
    have hp : 0 < 256 ^ k := by positivity
    rw [Nat.mod_pow_succ, Nat.mod_pow_succ]
    constructor
    · intro h
      have h1 := ih.mp (fun i hi => h i (by omega))
      rw [h1, h k (by omega)]
    · intro h i hi
      have ha : (c1 % 256 ^ k + 256 ^ k * (c1 / 256 ^ k % 256)) % 256 ^ k = c1 % 256 ^ k := by
        rw [Nat.add_mul_mod_self_left, Nat.mod_mod]
      have hb : (c2 % 256 ^ k + 256 ^ k * (c2 / 256 ^ k % 256)) % 256 ^ k = c2 % 256 ^ k := by
        rw [Nat.add_mul_mod_self_left, Nat.mod_mod]
      have hm : c1 % 256 ^ k = c2 % 256 ^ k := by rw [← ha, ← hb, h]
      rcases Nat.lt_succ_iff_lt_or_eq.mp hi with hlt | rfl
      · exact ih.mpr hm i hlt
      · rw [hm] at h
        have := Nat.add_left_cancel h
        exact Nat.eq_of_mul_eq_mul_left hp this

theorem extraNonce2_bytes_eq_iff (n c1 c2 : Nat) :
    (List.range n).map (fun i => if i < 8 then (Fin.ofNat (c1 / 256 ^ i) : Byte) else 0)
      = (List.range n).map (fun i => if i < 8 then (Fin.ofNat (c2 / 256 ^ i) : Byte) else 0)
    ↔ c1 % 256 ^ (min n 8) = c2 % 256 ^ (min n 8) := by
  rw [← digits_eq_iff_mod_eq]
  constructor
  · intro h i hi
    have := List.map_inj_left.mp h i (by simp; omega)
    have hi8 : i < 8 := by omega
    simp only [hi8, if_true] at this
    have := congrArg Fin.val this
    simpa [Fin.ofNat] using this
  · intro h
    apply List.map_congr_left
    intro i hi
    by_cases hi8 : i < 8
    · simp only [hi8, if_true]
      apply Fin.ext
      simp only [Fin.ofNat]
      exact h i (by simp at hi; omega)
    · simp [hi8]

/-- C6 (as stated, refuted): with the extranonce2 size 4 the distinct counters `1`
and `1 + 2^32` give the same extranonce2. -/
theorem GenerateExtraNonce2_collision :
    (1 : Int) ≤ 4 ∧ (1 : Nat) < 2 ^ 64 ∧ 1 + 2 ^ 32 < 2 ^ 64 ∧ (1 : Nat) ≠ 1 + 2 ^ 32
    ∧ GenerateExtraNonce2 4 1 = GenerateExtraNonce2 4 (1 + 2 ^ 32) := by
  decide

/-- C6 (amended): for every size ≥ 0 and all 64-bit counters `c1`, `c2`, the two
extranonce2 strings are equal exactly when `c1` and `c2` agree modulo
`256 ^ min(size, 8)`; so two counters that differ modulo `256 ^ min(size, 8)` never
collide, and for size ≥ 8 no two distinct 64-bit counters collide. -/
theorem GenerateExtraNonce2_eq_iff (size : Int) (c1 c2 : Nat) (hs : 0 ≤ size)
    (h1 : c1 < 2 ^ 64) (h2 : c2 < 2 ^ 64) :
    (GenerateExtraNonce2 size c1 = GenerateExtraNonce2 size c2
      ↔ c1 % 256 ^ (min size.toNat 8) = c2 % 256 ^ (min size.toNat 8))
    ∧ (8 ≤ size → c1 ≠ c2 → GenerateExtraNonce2 size c1 ≠ GenerateExtraNonce2 size c2) := by
  have hiff : GenerateExtraNonce2 size c1 = GenerateExtraNonce2 size c2
      ↔ c1 % 256 ^ (min size.toNat 8) = c2 % 256 ^ (min size.toNat 8) := by
    rw [extraNonce2_encoding size c1 hs, extraNonce2_encoding size c2 hs,
      ← extraNonce2_bytes_eq_iff]
    constructor
    · intro h
      exact EncodeToString_injective _ _ (Option.some.inj h)
    · intro h
      rw [h]
  refine ⟨hiff, ?_⟩
  intro h8 hne heq
  have hm := hiff.mp heq
  have hmin : min size.toNat 8 = 8 := by omega
  rw [hmin] at hm
  have e1 : c1 % 256 ^ 8 = c1 := Nat.mod_eq_of_lt (by norm_num at h1 ⊢; omega)
  have e2 : c2 % 256 ^ 8 = c2 := Nat.mod_eq_of_lt (by norm_num at h2 ⊢; omega)
  rw [e1, e2] at hm
  exact hne hm

/-- Witness for C6: the theorem applied to size 8 and the counters 1 and 2. -/
theorem GenerateExtraNonce2_eq_iff_witness :
    (GenerateExtraNonce2 8 1 = GenerateExtraNonce2 8 2
      ↔ 1 % 256 ^ (min (8 : Int).toNat 8) = 2 % 256 ^ (min (8 : Int).toNat 8))
    ∧ ((8 : Int) ≤ 8 → (1 : Nat) ≠ 2 → GenerateExtraNonce2 8 1 ≠ GenerateExtraNonce2 8 2) :=
  GenerateExtraNonce2_eq_iff 8 1 2 (by decide) (by decide) (by decide)

/-! ## C7: nonce ranges of the workers -/

theorem baseNonce_eq (workerID : Nat) : baseNonce workerID = workerID % 256 * 2 ^ 24 := by
  have h : (1 : Nat) <<< 24 = 16777216 := by decide
  simp only [baseNonce, h]
  omega

/-- C7 (as stated, refuted): with 257 threads the distinct workers 0 and 256 both
search nonce 0, since `uint32(256) * 2^24` wraps to 0. -/
theorem nonce_ranges_overlap :
    (0 : Nat) ≠ 256 ∧ (0 : Nat) < 257 ∧ (256 : Nat) < 257
    ∧ searches 0 0 ∧ searches 256 0 := by
  decide

/-- C7 (amended): the nonce ranges `[base(i), base(i) + 2^16)` and
`[base(j), base(j) + 2^16)` of two workers are disjoint exactly when `i` and `j`
differ modulo 256; in particular they are disjoint for all distinct `i, j < 256`,
that is whenever the thread count is at most 256. -/
theorem nonce_ranges_disjoint_iff (i j : Nat) :
    ((∀ nonce, ¬ (searches i nonce ∧ searches j nonce)) ↔ i % 256 ≠ j % 256)
    ∧ (i < 256 → j < 256 → i ≠ j → ∀ nonce, ¬ (searches i nonce ∧ searches j nonce)) := by
  have hr : nonceRange = 65536 := by decide
  have hiff : (∀ nonce, ¬ (searches i nonce ∧ searches j nonce)) ↔ i % 256 ≠ j % 256 := by
    simp only [searches, baseNonce_eq, hr]
    constructor
    · intro h heq
      apply h (i % 256 * 2 ^ 24)
      rw [heq]
      omega
    · intro hne nonce
      omega
  refine ⟨hiff, ?_⟩
  intro hi hj hne
  apply hiff.mpr
  omega

/-- Witness for C7: the theorem applied to workers 3 and 200 at a nonce of worker 3. -/
theorem nonce_ranges_disjoint_iff_witness :
    ¬ (searches 3 (3 * 2 ^ 24 + 5) ∧ searches 200 (3 * 2 ^ 24 + 5)) :=
  (nonce_ranges_disjoint_iff 3 200).2 (by decide) (by decide) (by decide) (3 * 2 ^ 24 + 5)

/-! ## The block "Ensure 32 bytes" -/

theorem bigBytesAux_value (fuel : Nat) : ∀ (n : Nat) (acc : List Byte), n ≤ fuel →
    beValue (bigBytesAux fuel n acc) = n * 256 ^ acc.length + beValue acc := by
  induction fuel with
  | zero =>
    intro n acc h
    have : n = 0 := by omega
    simp [bigBytesAux, this]
  | succ f ih =>
    intro n acc h
    by_cases hn : n = 0
    · simp [bigBytesAux, hn]
    · simp only [bigBytesAux, hn, if_false]
      rw [ih (n / 256) _ (by omega), beValue_cons, List.length_cons, pow_succ]
      have hv : (Fin.ofNat (n % 256) : Byte).val = n % 256 := by
        simp [Fin.ofNat]
      rw [hv]
      have e : n * 256 ^ acc.length
          = n / 256 * (256 ^ acc.length * 256) + n % 256 * 256 ^ acc.length := by
        have hdm := Nat.div_add_mod n 256
        calc n * 256 ^ acc.length
            = (256 * (n / 256) + n % 256) * 256 ^ acc.length := by rw [hdm]
          _ = n / 256 * (256 ^ acc.length * 256) + n % 256 * 256 ^ acc.length := by ring
      rw [e]
      ring

theorem bigBytesAux_length (fuel : Nat) : ∀ (k n : Nat) (acc : List Byte), n ≤ fuel →
    n < 256 ^ k → (bigBytesAux fuel n acc).length ≤ k + acc.length := by
  induction fuel with
  | zero =>
    intro k n acc _ _
    simp [bigBytesAux]
  | succ f ih =>
    intro k n acc h hk
    by_cases hn : n = 0
    · simp [bigBytesAux, hn]
    · simp only [bigBytesAux, hn, if_false]
      obtain ⟨j, rfl⟩ : ∃ j, k = j + 1 := by
        cases k with
        | zero => simp at hk; omega
        | succ j => exact ⟨j, rfl⟩
      have := ih j (n / 256) (Fin.ofNat (n % 256) :: acc) (by omega)
        (by rw [pow_succ] at hk; omega)
      simp only [List.length_cons] at this
      omega

/-- A value below `2^256` is written right-aligned into 32 bytes, most significant
byte first. -/
theorem ensure32_spec (n : Nat) (h : n < 2 ^ 256) :
    ∃ t, ensure32 n = some t ∧ t.length = 32 ∧ beValue t = n := by
  have hl : (bigBytes n).length ≤ 32 := by
    have := bigBytesAux_length n 32 n [] le_rfl (by norm_num at h ⊢; omega)
    simpa [bigBytes] using this
  have hv : beValue (bigBytes n) = n := by
    have := bigBytesAux_value n n [] le_rfl
    simpa [bigBytes, beValue] using this
  have hc : copyAt (makeBytes 32) (32 - (bigBytes n).length) 32 (bigBytes n)
      = List.replicate (32 - (bigBytes n).length) 0 ++ bigBytes n := by
    have hm : min (32 - (32 - (bigBytes n).length)) (bigBytes n).length = (bigBytes n).length := by
      omega
    simp only [copyAt, hm, makeBytes, List.take_length, List.take_replicate, List.drop_replicate]
    have h0 : 32 - (32 - (bigBytes n).length + (bigBytes n).length) = 0 := by omega
    have h1 : min (32 - (bigBytes n).length) 32 = 32 - (bigBytes n).length := by omega
    rw [h0, h1]
    simp
  refine ⟨List.replicate (32 - (bigBytes n).length) 0 ++ bigBytes n, ?_, ?_, ?_⟩
  · simp only [ensure32, hl, if_true]
    rw [hc]
  · simp only [List.length_append, List.length_replicate]
    omega
  · rw [beValue_append, beValue_replicate_zero, hv]
    simp

/-! ## C8 and C9: `DifficultyToTarget` -/

theorem bdiff1_lt : bdiff1 < 2 ^ 256 := by decide

/-- The clamped integer divisor of `DifficultyToTarget` is the difficulty rounded
down, replaced by 1 when that is not positive. -/
theorem floatToInt_finite (neg : Bool) (mant : Nat) (exp : Int) :
    ∃ z : Int, floatToInt (.finite neg mant exp) = some z
      ∧ (if z ≤ 0 then 1 else z) = max 1 ⌊finiteValue neg mant exp⌋ := by
  refine ⟨_, rfl, ?_⟩
  by_cases he : 0 ≤ exp
  · obtain ⟨k, rfl⟩ := Int.eq_ofNat_of_zero_le he
    have hval : finiteValue neg mant (k : Int)
        = (((if neg then -((mant * 2 ^ k : Nat) : Int) else ((mant * 2 ^ k : Nat) : Int)) : Int) : ℚ) := by
      cases neg <;> simp [finiteValue, zpow_natCast]
    rw [hval, Int.floor_intCast]
    simp only [he, if_true, Int.toNat_ofNat]
    split <;> omega
  · have hk : exp = -(((-exp).toNat : Nat) : Int) := by omega
    have he2 : (2 : ℚ) ^ exp = 1 / ((2 ^ (-exp).toNat : Nat) : ℚ) := by
      conv_lhs => rw [hk]
      rw [zpow_neg, zpow_natCast]
      simp
    simp only [he, if_false]
    cases neg with
    | false =>
      have hval : finiteValue false mant exp = (mant : ℚ) / ((2 ^ (-exp).toNat : Nat) : ℚ) := by
        simp only [finiteValue, he2]
        simp
        ring
      rw [hval, Rat.floor_natCast_div_natCast, ← Int.ofNat_ediv]
      simp only [Bool.false_eq_true, if_false]
      generalize mant / 2 ^ (-exp).toNat = mag
      split <;> omega
    | true =>
      have hval : finiteValue true mant exp = -((mant : ℚ) / ((2 ^ (-exp).toNat : Nat) : ℚ)) := by
        simp only [finiteValue, he2]
        simp
        ring
      have hnp : finiteValue true mant exp ≤ 0 := by
        rw [hval]
        have : (0 : ℚ) ≤ (mant : ℚ) / ((2 ^ (-exp).toNat : Nat) : ℚ) := by positivity
        linarith
      have hf := Int.floor_nonpos hnp
      simp only [if_true]
      generalize mant / 2 ^ (-exp).toNat = mag
      split <;> omega

/-- What `DifficultyToTarget` returns on a finite difficulty: 32 bytes whose
big-endian value is `bdiff1` divided by the clamped integer part. -/
theorem DifficultyToTarget_finite (neg : Bool) (mant : Nat) (exp : Int) :
    ∃ t, DifficultyToTarget (.finite neg mant exp) = some t ∧ t.length = 32
      ∧ beValue t = bdiff1 / (max 1 ⌊finiteValue neg mant exp⌋).toNat := by
  obtain ⟨z, hz, hclamp⟩ := floatToInt_finite neg mant exp
  have hpos : 1 ≤ max 1 ⌊finiteValue neg mant exp⌋ := le_max_left _ _
  obtain ⟨d, hd⟩ := Int.eq_ofNat_of_zero_le (show 0 ≤ max 1 ⌊finiteValue neg mant exp⌋ by omega)
  have hdiv : ((bdiff1 : Int) / max 1 ⌊finiteValue neg mant exp⌋).toNat = bdiff1 / d := by
    rw [hd, ← Int.ofNat_ediv, Int.toNat_ofNat]
  have hlt : bdiff1 / d < 2 ^ 256 := lt_of_le_of_lt (Nat.div_le_self _ _) bdiff1_lt
  obtain ⟨t, ht, hlen, hval⟩ := ensure32_spec (bdiff1 / d) hlt
  refine ⟨t, ?_, hlen, ?_⟩
  · simp only [DifficultyToTarget, hz, hclamp, hdiv, ht]
  · rw [hval, hd, Int.toNat_ofNat]

/-- C8 (code defect): the claim, like the comment `Target = bdiff1 / difficulty` of
the function, gives `floor(R / d)` for a finite difficulty `d`.  At the difficulty
0.5 that target is `2R`, which fits in 256 bits, but `DifficultyToTarget(0.5)`
returns `R`: the conversion to `big.Int` drops the fractional part, leaving 0, and
the clamp then replaces 0 by 1. -/
theorem DifficultyToTarget_half :
    finiteValue false 1 (-1) = 1 / 2
    ∧ specDifficultyTarget (1 / 2) = 2 * bdiff1
    ∧ specDifficultyTarget (1 / 2) < 2 ^ 256
    ∧ ∃ t, DifficultyToTarget (.finite false 1 (-1)) = some t ∧ beValue t = bdiff1
        ∧ (beValue t : Int) ≠ specDifficultyTarget (1 / 2) := by
  have hs : specDifficultyTarget (1 / 2) = 2 * bdiff1 := by
    have h1 : ¬ ((1 : ℚ) / 2 ≤ 0) := by norm_num
    simp only [specDifficultyTarget, h1, if_false]
    have : (bdiff1 : ℚ) / (1 / 2) = ((2 * bdiff1 : Int) : ℚ) := by
      push_cast
      ring
    rw [this, Int.floor_intCast]
  have hpos : 0 < bdiff1 := by decide
  have hlt : 2 * bdiff1 < 2 ^ 256 := by decide
  have hv : ∃ t, DifficultyToTarget (.finite false 1 (-1)) = some t ∧ beValue t = bdiff1 :=
    ⟨_, rfl, by decide⟩
  obtain ⟨t, ht, hval⟩ := hv
  refine ⟨?_, hs, ?_, t, ht, hval, ?_⟩
  · simp [finiteValue]
  · rw [hs]
    exact_mod_cast hlt
  · rw [hs, hval]
    omega

/-- The same defect at the difficulty 1.5: the specified target is
`floor(2R / 3)`, the code returns `R`. -/
theorem DifficultyToTarget_one_and_half :
    finiteValue false 3 (-1) = 3 / 2
    ∧ specDifficultyTarget (3 / 2) = 2 * bdiff1 / 3
    ∧ ∃ t, DifficultyToTarget (.finite false 3 (-1)) = some t ∧ beValue t = bdiff1
        ∧ (beValue t : Int) ≠ specDifficultyTarget (3 / 2) := by
  have hs : specDifficultyTarget (3 / 2) = 2 * bdiff1 / 3 := by
    have h1 : ¬ ((3 : ℚ) / 2 ≤ 0) := by norm_num
    simp only [specDifficultyTarget, h1, if_false]
    have : (bdiff1 : ℚ) / (3 / 2) = ((2 * bdiff1 : Int) : ℚ) / ((3 : Nat) : ℚ) := by
      push_cast
      ring
    rw [this, Rat.floor_intCast_div_natCast]
    rfl
  have hv : ∃ t, DifficultyToTarget (.finite false 3 (-1)) = some t ∧ beValue t = bdiff1 :=
    ⟨_, rfl, by decide⟩
  obtain ⟨t, ht, hval⟩ := hv
  refine ⟨?_, hs, t, ht, hval, ?_⟩
  · simp only [finiteValue]
    norm_num
  · rw [hs, hval]
    have hb : bdiff1 = 65535 * 2 ^ 208 := by decide
    rw [hb]
    omega

/-- Where the code does meet the specified formula: for every integer difficulty
`n ≥ 1`, `DifficultyToTarget(n)` is the 32-byte encoding of `floor(R / n)`; in
particular `DifficultyToTarget(1.0)` is `R`. -/
theorem DifficultyToTarget_integer :
    (∀ n : Nat, 1 ≤ n →
      ∃ t, DifficultyToTarget (.finite false n 0) = some t ∧ t.length = 32
        ∧ (beValue t : Int) = specDifficultyTarget (finiteValue false n 0))
    ∧ (∃ t, DifficultyToTarget (.finite false 1 0) = some t ∧ t.length = 32
        ∧ beValue t = bdiff1) := by
  refine ⟨?_, ⟨_, rfl, by decide, by decide⟩⟩
  intro n hn
  obtain ⟨t, ht, hl, hv⟩ := DifficultyToTarget_finite false n 0
  have hfv : finiteValue false n 0 = (n : ℚ) := by simp [finiteValue]
  refine ⟨t, ht, hl, ?_⟩
  rw [hv, hfv, Int.floor_natCast]
  have hmax : max (1 : Int) (n : Int) = (n : Int) := max_eq_right (by exact_mod_cast hn)
  have hpos : ¬ ((n : ℚ) ≤ 0) := by
    have : (0 : ℚ) < (n : ℚ) := by exact_mod_cast hn
    linarith
  rw [hmax, Int.toNat_ofNat]
  simp only [specDifficultyTarget, hpos, if_false]
  rw [Rat.floor_natCast_div_natCast]
  exact Int.ofNat_ediv _ _

/-- C9: `DifficultyToTarget` is monotonically decreasing: for finite difficulties
`d1 ≤ d2` both calls return, and the big-endian value of the target of `d2` is at
most that of the target of `d1`. -/
theorem DifficultyToTarget_antitone (neg1 neg2 : Bool) (mant1 mant2 : Nat) (exp1 exp2 : Int)
    (hle : finiteValue neg1 mant1 exp1 ≤ finiteValue neg2 mant2 exp2) :
    ∃ t1 t2, DifficultyToTarget (.finite neg1 mant1 exp1) = some t1
      ∧ DifficultyToTarget (.finite neg2 mant2 exp2) = some t2
      ∧ beValue t2 ≤ beValue t1 := by
  obtain ⟨t1, h1, _, v1⟩ := DifficultyToTarget_finite neg1 mant1 exp1
  obtain ⟨t2, h2, _, v2⟩ := DifficultyToTarget_finite neg2 mant2 exp2
  refine ⟨t1, t2, h1, h2, ?_⟩
  rw [v1, v2]
  have hfl : ⌊finiteValue neg1 mant1 exp1⌋ ≤ ⌊finiteValue neg2 mant2 exp2⌋ := Int.floor_mono hle
  apply Nat.div_le_div_left
  · omega
  · omega

/-- Witness for C9: the theorem applied to the difficulties 1.5 and 1024. -/
theorem DifficultyToTarget_antitone_witness :
    ∃ t1 t2, DifficultyToTarget (.finite false 3 (-1)) = some t1
      ∧ DifficultyToTarget (.finite false 1 10) = some t2
      ∧ beValue t2 ≤ beValue t1 :=
  DifficultyToTarget_antitone false false 3 1 (-1) 10 (by norm_num [finiteValue])

/-! ## C10: `CompactToTarget` -/

/-- C10 (as stated, refuted): for `bits = 0x03800000` the exponent is 3 and the low
three bytes, `0x800000`, fit in 256 bits, but `CompactToTarget` returns the
all-zero target: bit 23 is not part of the mantissa. -/
theorem CompactToTarget_bit23 :
    3 ≤ 0x03800000 >>> 24
    ∧ (0x03800000 &&& 0x00ffffff) * 256 ^ (0x03800000 >>> 24 - 3) < 2 ^ 256
    ∧ ∃ t, CompactToTarget 0x03800000 = some t ∧ beValue t = 0
        ∧ beValue t ≠ (0x03800000 &&& 0x00ffffff) * 256 ^ (0x03800000 >>> 24 - 3) := by
  refine ⟨by decide, by decide, _, rfl, by decide, by decide⟩

/-- C10 (amended): for every 32-bit compact value whose exponent `e = bits >> 24`
is at least 3 and whose decoded value fits in 256 bits, `CompactToTarget(bits)` is
the 32-byte right-aligned big-endian encoding of `m * 256^(e-3)`, where the
mantissa `m` is the low 23 bits of `bits` (`bits & 0x007fffff`); for
`bits = 0x1d00ffff` this is the canonical difficulty-1 target. -/
theorem CompactToTarget_spec :
    (∀ bits : Nat, bits < 2 ^ 32 → 3 ≤ bits >>> 24 →
      (bits &&& 0x007fffff) * 256 ^ (bits >>> 24 - 3) < 2 ^ 256 →
      ∃ t, CompactToTarget bits = some t ∧ t.length = 32
        ∧ beValue t = (bits &&& 0x007fffff) * 256 ^ (bits >>> 24 - 3)
        ∧ bits &&& 0x007fffff = bits % 2 ^ 23)
    ∧ (∃ t, CompactToTarget 0x1d00ffff = some t ∧ t.length = 32 ∧ beValue t = bdiff1) := by
  refine ⟨?_, _, rfl, by decide, by decide⟩
  intro bits hb he hfit
  have hexp : bits >>> 24 < 256 := by
    rw [Nat.shiftRight_eq_div_pow]
    omega
  have hshift : (8 * ((bits >>> 24 + 2 ^ 32 - 3) % 2 ^ 32)) % 2 ^ 32 = 8 * (bits >>> 24 - 3) := by
    omega
  have htarget : (bits &&& 0x007fffff) <<< (8 * (bits >>> 24 - 3))
      = (bits &&& 0x007fffff) * 256 ^ (bits >>> 24 - 3) := by
    rw [Nat.shiftLeft_eq, pow_mul]
    norm_num
  obtain ⟨t, ht, hlen, hval⟩ := ensure32_spec _ hfit
  refine ⟨t, ?_, hlen, hval, ?_⟩
  · simp only [CompactToTarget, hshift, htarget, ht]
  · exact Nat.and_pow_two_sub_one_eq_mod bits 23

/-- Witness for C10: the theorem applied to `bits = 0x1b0404cb`. -/
theorem CompactToTarget_spec_witness :
    ∃ t, CompactToTarget 0x1b0404cb = some t ∧ t.length = 32
      ∧ beValue t = (0x1b0404cb &&& 0x007fffff) * 256 ^ (0x1b0404cb >>> 24 - 3)
      ∧ 0x1b0404cb &&& 0x007fffff = 0x1b0404cb % 2 ^ 23 :=
  CompactToTarget_spec.1 0x1b0404cb (by decide) (by decide) (by decide)

/-! ## C11: malformed `mining.notify` -/

/-- A parameter list of fewer than 9 entries is dropped: one error line is logged,
the client is unchanged and the new-work handler is not invoked. -/
theorem handleMiningNotify_short (c : ClientState) (params : List GoValue)
    (h : params.length < 9) :
    handleMiningNotify c params = some (c, [Event.logged "Invalid mining.notify params"]) := by
  simp [handleMiningNotify, h]

/-- C11 (code defect): a `mining.notify` of 9 or more entries with an entry of an
unexpected type is not dropped; `handleMiningNotify` panics on the unchecked type
assertion.  Shown for a numeric job id (any other entries) and for a clean-jobs
flag that is a string (all other entries well typed). -/
theorem handleMiningNotify_wrong_type_panics (c : ClientState) :
    (∀ (v : Float64) (p1 p2 p3 p4 p5 p6 p7 p8 : GoValue) (rest : List GoValue),
      handleMiningNotify c (.float64 v :: p1 :: p2 :: p3 :: p4 :: p5 :: p6 :: p7 :: p8 :: rest)
        = none)
    ∧ (∀ (job prev cb1 cb2 ver bits time flag : String) (branches : List GoValue)
        (rest : List GoValue),
      handleMiningNotify c (.string job :: .string prev :: .string cb1 :: .string cb2
          :: .slice branches :: .string ver :: .string bits :: .string time :: .string flag
          :: rest) = none) := by
  constructor
  · intro v p1 p2 p3 p4 p5 p6 p7 p8 rest
    simp [handleMiningNotify, GoValue.asString]
  · intro job prev cb1 cb2 ver bits time flag branches rest
    simp [handleMiningNotify, GoValue.asString, GoValue.asBool]

/-- C11 at a failing input: the job id sent as the number 1. -/
theorem handleMiningNotify_panics_example :
    handleMiningNotify exampleClient
      [.float64 (.finite false 1 0), .string "00", .string "01", .string "02", .slice [],
        .string "20000000", .string "1d00ffff", .string "5f5e1000", .bool true] = none := by
  rfl

/-- On a well-typed list the work is stored and handed to the handler. -/
theorem handleMiningNotify_well_typed_example :
    ∃ c ev, handleMiningNotify exampleClient
      [.string "1f", .string "00", .string "01", .string "02", .slice [.string "a1b2"],
        .string "20000000", .string "1d00ffff", .string "5f5e1000", .bool true] = some (c, ev)
      ∧ (c.currentWork.map (fun w => w.JobID)) = some "1f"
      ∧ (c.currentWork.map (fun w => w.MerkleBranch)) = some ["a1b2"]
      ∧ ev.length = 2 := by
  exact ⟨_, _, rfl, by decide, by decide, by decide⟩

/-! ## C12: `client.reconnect` -/

/-- C12 (code defect): on a connected client `handleReconnectRequest` only logs.
The loop of `reconnect` is guarded by `!c.connected` and nothing has cleared the
flag, so for every environment the client is returned unchanged, still connected,
with no `Connect` attempt and no reconnect callback. -/
theorem handleReconnectRequest_connected_noop (codec : JSONCodec) (c : ClientState)
    (params : List GoValue) (envs : List ConnectEnv) :
    handleReconnectRequest codec { c with connected := true } params envs
      = .finished { c with connected := true } [Event.logged "Reconnect requested by pool"] := by
  cases envs <;> simp [handleReconnectRequest, reconnect, LoopResult.after]

/-- The same through the dispatcher, at a concrete connected client. -/
theorem reconnect_notification_example :
    handleNotification exampleCodec exampleClient ⟨"client.reconnect", []⟩
        [⟨true, .reply "[null,null,4]" none, .reply "true" none⟩]
      = .finished exampleClient [Event.logged "Reconnect requested by pool"] := by
  decide

/-- The sibling path: `handleDisconnect` clears the flag first, so the same
environment leads to a `Connect` attempt, a connected client and the callback. -/
theorem handleDisconnect_example :
    ∃ c ev, handleDisconnect exampleCodec exampleClient
        [⟨true, .reply "[null,null,4]" none, .reply "true" none⟩] = .finished c ev
      ∧ c.connected = true ∧ Event.connectAttempt ∈ ev ∧ Event.reconnected ∈ ev := by
  exact ⟨_, _, rfl, by decide, by decide, by decide⟩

/-! ## C13: `CheckDifficulty` -/

theorem CheckDifficulty.loop_eq_reverse (hash : Hash32) (target : List Byte)
    (ht : target.length = 32) (n i : Nat) (h : i + n = 32) :
    CheckDifficulty.loop hash target n i
      = CheckTarget.loop hash.val.reverse target.reverse n i := by
  have hh : hash.val.length = 32 := hash.property
  induction n generalizing i with
  | zero => rfl
  | succ n ih =>
    have hi : i < 32 := by omega
    have hc : i < target.length ∧ i < 32 := ⟨by omega, hi⟩
    have e1 : hash.val.reverse[i]? = hash.val[31 - i]? := by
      rw [List.getElem?_reverse (by omega), hh]
    have e2 : target.reverse[i]? = target[31 - i]? := by
      rw [List.getElem?_reverse (by omega), ht]
    have g1 : hash.val[31 - i]? = some (hash.val.get ⟨31 - i, by omega⟩) :=
      List.getElem?_eq_getElem (by omega)
    have g2 : target[31 - i]? = some (target.get ⟨31 - i, by omega⟩) :=
      List.getElem?_eq_getElem (by omega)
    simp only [CheckDifficulty.loop, CheckTarget.loop, hc, and_self, if_true, e1, e2, g1, g2]
    rw [ih (i + 1) (by omega)]
    generalize hash.val.get ⟨31 - i, _⟩ = a
    generalize target.get ⟨31 - i, _⟩ = b
    by_cases h1 : a < b
    · have h2 : ¬ a > b := not_lt.mpr (le_of_lt h1)
      simp [h1, h2]
    · by_cases h2 : a > b
      · simp [h1, h2]
      · simp [h1, h2]

/-- C13 (as stated, refuted): on the third case of `TestDifficultyCheck` the
big-endian value of the hash, 3, is at most that of the target, yet
`CheckDifficulty` returns false, as that test requires. -/
theorem CheckDifficulty_not_big_endian :
    testTarget.length = 32
    ∧ beValue testHash.val ≤ beValue testTarget
    ∧ CheckDifficulty testHash testTarget = some false := by
  decide

/-- C13 (amended): `CheckDifficulty` compares hash and target as little-endian
256-bit unsigned integers (byte 31 is the most significant): for every 32-byte
hash and every 32-byte target it returns true exactly when the little-endian value
of the hash is less than or equal to that of the target; in particular the
all-zero hash passes every 32-byte target. -/
theorem CheckDifficulty_iff_le (hash : Hash32) (target : List Byte)
    (ht : target.length = 32) :
    CheckDifficulty hash target = some (decide (leValue hash.val ≤ leValue target))
    ∧ CheckDifficulty zeroHash target = some true := by
  have key : ∀ h : Hash32,
      CheckDifficulty h target = some (decide (leValue h.val ≤ leValue target)) := by
    intro h
    have hh : h.val.length = 32 := h.property
    rw [CheckDifficulty, CheckDifficulty.loop_eq_reverse h target ht 32 0 (by omega),
      CheckTarget.loop_eq h.val.reverse target.reverse 32 0 (by simp [hh]) (by simp [ht])]
    simp [leValue]
  refine ⟨key hash, ?_⟩
  rw [key zeroHash]
  have hz : leValue zeroHash.val = 0 := by
    simp only [leValue, zeroHash, makeBytes, List.reverse_replicate]
    exact beValue_replicate_zero 32
  simp [hz]

/-- Witness for C13: the theorem applied to the second case of
`TestDifficultyCheck`, `hash[31] = 0x01` against `target[31] = 0x02`. -/
theorem CheckDifficulty_iff_le_witness :
    CheckDifficulty ⟨List.replicate 31 0 ++ [1], by decide⟩ testTarget
      = some (decide (leValue (List.replicate 31 0 ++ [1]) ≤ leValue testTarget))
    ∧ CheckDifficulty zeroHash testTarget = some true :=
  CheckDifficulty_iff_le ⟨List.replicate 31 0 ++ [1], by decide⟩ testTarget (by decide)

/-! ## C15: the result array of `mining.subscribe` -/

/-- C15 (code defect): when the call succeeds and the result decodes to an array of
exactly two elements, `subscribe` passes the guard `len(result) >= 2` and then
reads `result[2]`, which is out of range: it panics instead of returning. -/
theorem subscribe_two_elements_panics (codec : JSONCodec) (c : ClientState) (raw : String)
    (a b : String) (h : codec.unmarshalRawArray raw = some [a, b]) :
    subscribe codec c (.reply raw none) = none := by
  simp [subscribe, ClientState.call, call, h]

/-- Witness for C15: the theorem applied to the raw result `[null,null]`. -/
theorem subscribe_two_elements_panics_witness :
    subscribe exampleCodec exampleClient (.reply "[null,null]" none) = none :=
  subscribe_two_elements_panics exampleCodec exampleClient "[null,null]" "null" "null"
    (by decide)

/-- With three elements, and with fewer than two, `subscribe` returns without an
error. -/
theorem subscribe_other_lengths (codec : JSONCodec) (c : ClientState) (raw : String)
    (result : List String) (h : codec.unmarshalRawArray raw = some result)
    (hl : result.length ≠ 2) :
    ∃ c1 ev, subscribe codec c (.reply raw none) = some ⟨c1, ev, none⟩ := by
  simp only [subscribe, ClientState.call, call, h]
  by_cases h2 : result.length ≥ 2
  · have h3 : 2 < result.length := by omega
    have h1 : 1 < result.length := by omega
    simp only [h2, if_true, List.getElem?_eq_getElem h1, List.getElem?_eq_getElem h3]
    exact ⟨_, _, rfl⟩
  · simp only [h2, if_false]
    exact ⟨_, _, rfl⟩

end Stratum
